import Mathlib

/-!
# Verification of `routine_load_info.py`

A shallow embedding of the pure, text-rewriting core of the repository
`routine_load_info` (file `src/routine_load_info.py`) together with proofs
about it.  Strings are modelled as `List Char` (Python `str` is a sequence
of Unicode code points, as is `List Char`).  The Python regular expressions
used by the source are deterministic (no backtracking ambiguity: every
quantified class in them is disjoint from the character that follows it),
so each one is embedded as a straight-line scanner; `re.sub` is embedded as
a left-to-right fold that either replaces a match and continues after it,
or emits one character and retries, exactly like CPython's `re.sub`.
Database-facing functions are embedded with the database's behaviour as an
explicit response argument.
-/

namespace RL

/-- The characters matched by the regex class `\s` (ASCII range; the source
only ever feeds it SQL text and JSON, for which this is the relevant set). -/
def isSpc (c : Char) : Bool :=
  c = ' ' || c = '\t' || c = '\n' || c = '\r' || c = '\x0b' || c = '\x0c'

/-- ASCII decimal digits, the regex class `[0-9]`. -/
def isDigitCh (c : Char) : Bool := '0' ≤ c && c ≤ '9'

/-- The regex class `\w` (ASCII range). -/
def isWordCh (c : Char) : Bool :=
  ('a' ≤ c && c ≤ 'z') || ('A' ≤ c && c ≤ 'Z') || isDigitCh c || c = '_'

/-- The regex class `[0-9,\s]` appearing in the kafka-offsets pattern. -/
def isOffCh (c : Char) : Bool := isDigitCh c || c = ',' || isSpc c

/-- Greedy run of characters satisfying `p`: returns the maximal prefix all
of whose characters satisfy `p`, and the remainder.  This is how a greedy
`X*` regex piece behaves when the character after it cannot be in `X`. -/
def spanP (p : Char → Bool) : List Char → List Char × List Char
  | [] => ([], [])
  | c :: t => if p c then ((spanP p t).1.cons c, (spanP p t).2) else ([], c :: t)

/-- `headNotP p l` holds when `l` does not begin with a `p`-character. -/
def headNotP (p : Char → Bool) : List Char → Prop
  | [] => True
  | c :: _ => p c = false

instance (p : Char → Bool) (l : List Char) : Decidable (headNotP p l) := by
  cases l with
  | nil => exact isTrue trivial
  | cons c t => exact inferInstanceAs (Decidable (p c = false))

theorem spanP_app (p : Char → Bool) (a b : List Char)
    (ha : ∀ x ∈ a, p x = true) (hb : headNotP p b) :
    spanP p (a ++ b) = (a, b) := by
  induction a with
  | nil =>
    cases b with
    | nil => rfl
    | cons c t => simpa [spanP, headNotP.eq_def] using (by simpa [headNotP] using hb)
  | cons c t ih =>
    have hc : p c = true := ha c (by simp)
    have ht : ∀ x ∈ t, p x = true := fun x hx => ha x (by simp [hx])
    simp [spanP, hc, ih ht]

theorem spanP_eq (p : Char → Bool) (s a b : List Char) (h : spanP p s = (a, b)) :
    s = a ++ b ∧ (∀ x ∈ a, p x = true) ∧ headNotP p b := by
  induction s generalizing a b with
  | nil =>
    simp [spanP] at h
    simp [h.1, h.2, headNotP]
  | cons c t ih =>
    by_cases hc : p c = true
    · simp [spanP, hc] at h
      obtain ⟨a2, ha2, hb⟩ : ∃ a2, spanP p t = (a2, b) ∧ a = c :: a2 := by
        cases hs : spanP p t with
        | mk x y =>
          rw [hs] at h
          exact ⟨x, by simp [← h.1, ← h.2, hs], by simp [← h.1]⟩
      obtain ⟨ht, hall, hhd⟩ := ih a2 b ha2
      refine ⟨by simp [hb, ht], ?_, hhd⟩
      intro x hx
      rcases (by simpa [hb] using hx : x = c ∨ x ∈ a2) with h1 | h1
      · simp [h1, hc]
      · exact hall x h1
    · have hc2 : p c = false := by simpa using hc
      simp only [spanP, hc2, Bool.false_eq_true, if_false, Prod.mk.injEq] at h
      obtain ⟨h1, h2⟩ := h
      subst h1; subst h2
      exact ⟨by simp, by simp, by simp [headNotP, hc2]⟩

/-- Strip an expected literal from the front of a list. -/
def stripL : List Char → List Char → Option (List Char)
  | [], s => some s
  | _ :: _, [] => none
  | l :: lt, c :: t => if c = l then stripL lt t else none

theorem stripL_app (l x : List Char) : stripL l (l ++ x) = some x := by
  induction l with
  | nil => rfl
  | cons c t ih => simp [stripL, ih]

theorem stripL_eq (l s r : List Char) (h : stripL l s = some r) : s = l ++ r := by
  induction l generalizing s with
  | nil => simpa [stripL] using h
  | cons c t ih =>
    cases s with
    | nil => simp [stripL] at h
    | cons d u =>
      by_cases hd : d = c
      · subst hd
        simp only [stripL, if_pos rfl] at h
        simp [ih u h]
      · simp [stripL, hd] at h

theorem stripL_head_ne (c : Char) (l s : List Char) (h : c ≠ l.headI) (hl : l ≠ []) :
    stripL l (c :: s) = none := by
  cases l with
  | nil => exact absurd rfl hl
  | cons a u =>
    simp only [List.headI] at h
    simp [stripL, h]

/-- Split `x ++ y = u ++ v` when `u` is at most as long as `x`. -/
theorem splitAppend {x y u v : List Char} (h : x ++ y = u ++ v) (hl : u.length ≤ x.length) :
    ∃ t, x = u ++ t ∧ v = t ++ y := by
  induction u generalizing x with
  | nil => exact ⟨x, by simp, by simpa using h.symm⟩
  | cons a u2 ih =>
    cases x with
    | nil => simp at hl
    | cons b x2 =>
      simp only [List.cons_append, List.cons.injEq] at h
      obtain ⟨t, h1, h2⟩ := ih h.2 (by simpa using hl)
      exact ⟨t, by simp [h.1, h1], h2⟩

/-- A run of non-quote characters cannot be crossed by a quote:
if `X ++ '"' :: Y = W ++ Z` and `W` has no quote, the quote lies in `Z`. -/
theorem noQuoteCross {W X Y Z : List Char} (hW : ∀ x ∈ W, x ≠ '"')
    (h : X ++ '"' :: Y = W ++ Z) : ∃ X2, X = W ++ X2 ∧ X2 ++ '"' :: Y = Z := by
  induction W generalizing X with
  | nil => exact ⟨X, by simp, by simpa using h⟩
  | cons w W2 ih =>
    cases X with
    | nil =>
      exfalso
      have : '"' = w := by simpa using congrArg (List.headI) h
      exact hW w (by simp) this.symm
    | cons x X2 =>
      simp only [List.cons_append, List.cons.injEq] at h
      obtain ⟨X3, h1, h2⟩ := ih (fun a ha => hW a (by simp [ha])) h.2
      exact ⟨X3, by simp [h.1, h1], h2⟩

/-! ## Python `int()` and `str()` on integers -/

/-- Numeric value of an ASCII digit. -/
def digitVal (c : Char) : Nat := c.toNat - '0'.toNat

/-- Digits of a Python integer literal after the first digit: decimal digits
with single underscores allowed between digits (CPython `int(str)` grammar). -/
def digitsVal : Nat → List Char → Option Nat
  | acc, [] => some acc
  | acc, c :: t =>
    if isDigitCh c then digitsVal (acc * 10 + digitVal c) t
    else if c = '_' then
      match t with
      | d :: t2 => if isDigitCh d then digitsVal (acc * 10 + digitVal d) t2 else none
      | [] => none
    else none

/-- CPython `int(s)` for a string `s`: optional surrounding whitespace, an
optional sign, then digits (with single underscores); anything else raises,
modelled as `none`.  (ASCII digits and whitespace; the progress payloads the
source handles are ASCII.) -/
def pyIntList (s : List Char) : Option Int :=
  let t := ((s.dropWhile isSpc).reverse.dropWhile isSpc).reverse
  match t with
  | '+' :: d :: ds =>
    if isDigitCh d then (digitsVal (digitVal d) ds).map (fun n => (n : Int)) else none
  | '-' :: d :: ds =>
    if isDigitCh d then (digitsVal (digitVal d) ds).map (fun n => -(n : Int)) else none
  | d :: ds =>
    if isDigitCh d then (digitsVal (digitVal d) ds).map (fun n => (n : Int)) else none
  | [] => none

/-- Decimal digits of a natural number (fuel-indexed so that it reduces in
the kernel; `fuel = n + 1` always suffices). -/
def natDigitsF : Nat → Nat → List Char
  | 0, _ => []
  | f + 1, n =>
    if n < 10 then [Char.ofNat (n + 48)]
    else natDigitsF f (n / 10) ++ [Char.ofNat (n % 10 + 48)]

/-- CPython `str(i)` for an integer `i`. -/
def intStr : Int → List Char
  | Int.ofNat n => natDigitsF (n + 1) n
  | Int.negSucc m => '-' :: natDigitsF (m + 2) (m + 1)

/-- `", ".join(xs)` . -/
def joinSep (sep : List Char) : List (List Char) → List Char
  | [] => []
  | [x] => x
  | x :: y :: t => x ++ sep ++ joinSep sep (y :: t)

/-! ## JSON values and `json.loads`

The parser covers the JSON fragment the source can meet in a `Progress`
column: objects and arrays (nested), strings without escape sequences,
integer numbers, `true`, `false`, `null`.  Inputs outside this fragment
(float literals, string escapes) are not producible by the offsets map the
job tracker stores and are mapped to `none`. -/

inductive JVal where
  | jnull : JVal
  | jbool : Bool → JVal
  | jint : Int → JVal
  | jstr : List Char → JVal
  | jarr : List JVal → JVal
  | jobj : List (List Char × JVal) → JVal

/-- The characters CPython `json.loads` skips between tokens. -/
def isJWs (c : Char) : Bool := c = ' ' || c = '\t' || c = '\n' || c = '\r'

def skipWs (s : List Char) : List Char := s.dropWhile isJWs

/-- Opening and closing braces, by code point. -/
def lbrace : Char := Char.ofNat 123

def rbrace : Char := Char.ofNat 125

/-- Body of a JSON string after its opening quote: plain characters up to the
closing quote; escape sequences and raw control characters yield `none`
(the latter are rejected by `json.loads` in its default strict mode). -/
def parseStrBody : List Char → Option (List Char × List Char)
  | [] => none
  | c :: t =>
    if c = '"' then some ([], t)
    else if c = '\\' then none
    else if c.toNat < 32 then none
    else match parseStrBody t with
      | some (cs, r) => some (c :: cs, r)
      | none => none

/-- JSON integer literal without sign: `0`, or a nonzero digit followed by
digits; a following `.`, `e` or `E` (a float literal) is outside the
modelled fragment. -/
def parseNumNat (s : List Char) : Option (Nat × List Char) :=
  match s with
  | [] => none
  | c :: t =>
    if c = '0' then
      match t with
      | d :: _ =>
        if isDigitCh d || d = '.' || d = 'e' || d = 'E' then none else some (0, t)
      | [] => some (0, [])
    else if isDigitCh c then
      match spanP isDigitCh t with
      | (ds, r) =>
        match r with
        | d :: _ =>
          if d = '.' || d = 'e' || d = 'E' then none
          else some ((c :: ds).foldl (fun a d2 => a * 10 + digitVal d2) 0, r)
        | [] => some ((c :: ds).foldl (fun a d2 => a * 10 + digitVal d2) 0, [])
    else none

def parseNum (s : List Char) : Option (Int × List Char) :=
  match s with
  | '-' :: t => (parseNumNat t).map (fun p => (-(p.1 : Int), p.2))
  | t => (parseNumNat t).map (fun p => ((p.1 : Int), p.2))

/-- Insert a key/value pair as CPython dict assignment does: an existing key
keeps its position and receives the new value, a new key goes to the end. -/
def insertKV (kvs : List (List Char × JVal)) (k : List Char) (v : JVal) :
    List (List Char × JVal) :=
  match kvs with
  | [] => [(k, v)]
  | (k2, v2) :: t => if k2 = k then (k2, v) :: t else (k2, v2) :: insertKV t k v

mutual

/-- One JSON value (fuel-indexed recursive descent). -/
def parseVal : Nat → List Char → Option (JVal × List Char)
  | 0, _ => none
  | f + 1, s =>
    match skipWs s with
    | [] => none
    | c :: t =>
      if c = lbrace then
        match skipWs t with
        | c2 :: t2 =>
          if c2 = rbrace then some (JVal.jobj [], t2)
          else parseMembers f [] (c2 :: t2)
        | [] => none
      else if c = '[' then
        match skipWs t with
        | c2 :: t2 =>
          if c2 = ']' then some (JVal.jarr [], t2)
          else parseElems f [] (c2 :: t2)
        | [] => none
      else if c = '"' then
        (parseStrBody t).map (fun p => (JVal.jstr p.1, p.2))
      else if c = 't' then
        (stripL ('r' :: 'u' :: 'e' :: []) t).map (fun r => (JVal.jbool true, r))
      else if c = 'f' then
        (stripL ('a' :: 'l' :: 's' :: 'e' :: []) t).map (fun r => (JVal.jbool false, r))
      else if c = 'n' then
        (stripL ('u' :: 'l' :: 'l' :: []) t).map (fun r => (JVal.jnull, r))
      else
        (parseNum (c :: t)).map (fun p => (JVal.jint p.1, p.2))

/-- Members of a JSON object after its opening brace (at least one member). -/
def parseMembers : Nat → List (List Char × JVal) → List Char →
    Option (JVal × List Char)
  | 0, _, _ => none
  | f + 1, acc, s =>
    match skipWs s with
    | '"' :: t =>
      match parseStrBody t with
      | none => none
      | some (k, r1) =>
        match skipWs r1 with
        | ':' :: r2 =>
          match parseVal f r2 with
          | none => none
          | some (v, r3) =>
            match skipWs r3 with
            | ',' :: r4 => parseMembers f (insertKV acc k v) r4
            | c :: r4 =>
              if c = rbrace then some (JVal.jobj (insertKV acc k v), r4) else none
            | [] => none
        | _ => none
    | _ => none

/-- Elements of a JSON array after its opening bracket (at least one). -/
def parseElems : Nat → List JVal → List Char → Option (JVal × List Char)
  | 0, _, _ => none
  | f + 1, acc, s =>
    match parseVal f s with
    | none => none
    | some (v, r1) =>
      match skipWs r1 with
      | ',' :: r2 => parseElems f (acc ++ [v]) r2
      | ']' :: r2 => some (JVal.jarr (acc ++ [v]), r2)
      | _ => none

end

/-- CPython `json.loads`, on the modelled fragment: parse one value and
require only whitespace after it. -/
def jsonLoads (s : List Char) : Option JVal :=
  match parseVal (s.length + 1) s with
  | some (v, r) => if skipWs r = [] then some v else none
  | none => none

/-! ## `replace_kafka_offsets`

Source lines 131-153.  The regex is `kafka_offsets"\s*=\s*"[0-9,\s]*"`;
each quantified piece is followed by a character outside its class, so the
pattern matches deterministically and is embedded as a scanner. -/

def litKafka : List Char :=
  'k' :: 'a' :: 'f' :: 'k' :: 'a' :: '_' :: 'o' :: 'f' :: 'f' :: 's' :: 'e' :: 't' :: 's' :: '"' :: []

/-- Stage 4 of the kafka-offsets pattern: after the opening quote of the
offsets body, a greedy `[0-9,\s]*` run followed by the closing quote. -/
def tryKafka4 (w1 w2 : List Char) : List Char × List Char → Option (List Char × List Char)
  | (body, c :: s7) =>
    if c = '"' then some (litKafka ++ w1 ++ '=' :: w2 ++ '"' :: body ++ ['"'], s7) else none
  | (_, []) => none

/-- Stage 3: after `=`, a greedy `\s*` run followed by `"`. -/
def tryKafka3 (w1 : List Char) : List Char × List Char → Option (List Char × List Char)
  | (w2, c :: s5) => if c = '"' then tryKafka4 w1 w2 (spanP isOffCh s5) else none
  | (_, []) => none

/-- Stage 2: after the literal `kafka_offsets"`, a greedy `\s*` run followed
by `=`. -/
def tryKafka2 : List Char × List Char → Option (List Char × List Char)
  | (w1, c :: s3) => if c = '=' then tryKafka3 w1 (spanP isSpc s3) else none
  | (_, []) => none

/-- Attempt the kafka-offsets pattern at the head of `s`; on success return
the matched text and the remainder. -/
def tryKafka (s : List Char) : Option (List Char × List Char) :=
  (stripL litKafka s).bind (fun s1 => tryKafka2 (spanP isSpc s1))

theorem tryKafka2_cons (w1 : List Char) (c : Char) (s3 : List Char) :
    tryKafka2 (w1, c :: s3) = if c = '=' then tryKafka3 w1 (spanP isSpc s3) else none := rfl

theorem tryKafka2_nilR (w1 : List Char) : tryKafka2 (w1, []) = none := rfl

theorem tryKafka3_cons (w1 w2 : List Char) (c : Char) (s5 : List Char) :
    tryKafka3 w1 (w2, c :: s5)
      = if c = '"' then tryKafka4 w1 w2 (spanP isOffCh s5) else none := rfl

theorem tryKafka3_nilR (w1 w2 : List Char) : tryKafka3 w1 (w2, []) = none := rfl

theorem tryKafka4_cons (w1 w2 body : List Char) (c : Char) (s7 : List Char) :
    tryKafka4 w1 w2 (body, c :: s7)
      = if c = '"' then some (litKafka ++ w1 ++ '=' :: w2 ++ '"' :: body ++ ['"'], s7)
        else none := rfl

theorem tryKafka4_nilR (w1 w2 body : List Char) : tryKafka4 w1 w2 (body, []) = none := rfl

/-- The replacement text `kafka_offsets" = "<off>"` produced by the source's
`repl` callback (and also the shape of a canonical occurrence of the
pattern, with single spaces around `=`). -/
def replTextK (off : List Char) : List Char :=
  litKafka ++ ' ' :: '=' :: ' ' :: '"' :: off ++ ['"']

theorem tryKafka_sound {s w r : List Char} (h : tryKafka s = some (w, r)) :
    s = w ++ r ∧ w ≠ [] := by
  unfold tryKafka at h
  cases hs1 : stripL litKafka s with
  | none => rw [hs1] at h; exact absurd h (by simp)
  | some s1 =>
    rw [hs1] at h
    simp only [Option.some_bind] at h
    cases hsp1 : spanP isSpc s1 with
    | mk w1 s2 =>
      rw [hsp1] at h
      cases s2 with
      | nil => rw [tryKafka2_nilR] at h; exact absurd h (by simp)
      | cons c2 s3 =>
        by_cases hc2 : c2 = '='
        · subst hc2
          rw [tryKafka2_cons, if_pos rfl] at h
          cases hsp2 : spanP isSpc s3 with
          | mk w2 s4 =>
            rw [hsp2] at h
            cases s4 with
            | nil => rw [tryKafka3_nilR] at h; exact absurd h (by simp)
            | cons c4 s5 =>
              by_cases hc4 : c4 = '"'
              · subst hc4
                rw [tryKafka3_cons, if_pos rfl] at h
                cases hsp3 : spanP isOffCh s5 with
                | mk body s6 =>
                  rw [hsp3] at h
                  cases s6 with
                  | nil => rw [tryKafka4_nilR] at h; exact absurd h (by simp)
                  | cons c6 s7 =>
                    by_cases hc6 : c6 = '"'
                    · subst hc6
                      rw [tryKafka4_cons, if_pos rfl] at h
                      simp only [Option.some.injEq, Prod.mk.injEq] at h
                      obtain ⟨hw, hr⟩ := h
                      subst hw; subst hr
                      have e1 := stripL_eq _ _ _ hs1
                      have e2 := (spanP_eq _ _ _ _ hsp1).1
                      have e3 := (spanP_eq _ _ _ _ hsp2).1
                      have e4 := (spanP_eq _ _ _ _ hsp3).1
                      subst e1; subst e2; subst e3; subst e4
                      constructor
                      · simp [litKafka]
                      · simp [litKafka]
                    · rw [tryKafka4_cons, if_neg hc6] at h; exact absurd h (by simp)
              · rw [tryKafka3_cons, if_neg hc4] at h; exact absurd h (by simp)
        · rw [tryKafka2_cons, if_neg hc2] at h; exact absurd h (by simp)

theorem tryKafka_canon (off x : List Char) (hoff : ∀ c ∈ off, isOffCh c = true) :
    tryKafka (replTextK off ++ x) = some (replTextK off, x) := by
  have h1 : stripL litKafka (replTextK off ++ x)
      = some (' ' :: '=' :: ' ' :: '"' :: (off ++ '"' :: x)) := by
    have : replTextK off ++ x
        = litKafka ++ (' ' :: '=' :: ' ' :: '"' :: (off ++ '"' :: x)) := by
      simp [replTextK]
    rw [this, stripL_app]
  have h2 : spanP isSpc (' ' :: '=' :: ' ' :: '"' :: (off ++ '"' :: x))
      = ([' '], '=' :: ' ' :: '"' :: (off ++ '"' :: x)) := by
    have := spanP_app isSpc [' '] ('=' :: ' ' :: '"' :: (off ++ '"' :: x))
      (by intro c hc; simp at hc; simp [hc, isSpc]) (by simp [headNotP, isSpc])
    simpa using this
  have h3 : spanP isSpc (' ' :: '"' :: (off ++ '"' :: x))
      = ([' '], '"' :: (off ++ '"' :: x)) := by
    have := spanP_app isSpc [' '] ('"' :: (off ++ '"' :: x))
      (by intro c hc; simp at hc; simp [hc, isSpc]) (by simp [headNotP, isSpc])
    simpa using this
  have h4 : spanP isOffCh (off ++ '"' :: x) = (off, '"' :: x) :=
    spanP_app isOffCh off ('"' :: x) hoff (by show isOffCh '"' = false; decide)
  unfold tryKafka
  rw [h1]
  simp only [Option.some_bind]
  rw [h2, tryKafka2_cons, if_pos rfl]
  rw [h3, tryKafka3_cons, if_pos rfl]
  rw [h4, tryKafka4_cons, if_pos rfl, replTextK]
  simp

theorem tryKafka_rest_lt {s w r : List Char} (h : tryKafka s = some (w, r)) :
    r.length < s.length := by
  obtain ⟨hs, hw⟩ := tryKafka_sound h
  subst hs
  cases w with
  | nil => exact absurd rfl hw
  | cons a b => simp only [List.length_append, List.length_cons]; omega

theorem tryKafka_not_k {c : Char} (t : List Char) (h : c ≠ 'k') :
    tryKafka (c :: t) = none := by
  have : stripL litKafka (c :: t) = none :=
    stripL_head_ne c litKafka t (by simpa [litKafka] using h) (by simp [litKafka])
  simp [tryKafka, this]

/-- Fuel-indexed embedding of
`re.sub(r'kafka_offsets"\s*=\s*"[0-9,\s]*"', repl, s)`. -/
def subKafkaF (off : List Char) : Nat → List Char → List Char
  | 0, s => s
  | f + 1, s =>
    match tryKafka s with
    | some (_, r) => replTextK off ++ subKafkaF off f r
    | none =>
      match s with
      | [] => []
      | c :: t => c :: subKafkaF off f t

def subKafka (off s : List Char) : List Char := subKafkaF off s.length s

theorem subKafkaF_fuelInv (off : List Char) :
    ∀ f g s, s.length ≤ f → s.length ≤ g → subKafkaF off f s = subKafkaF off g s := by
  intro f
  induction f with
  | zero =>
    intro g s hf _
    have : s = [] := by
      cases s with
      | nil => rfl
      | cons c t => simp at hf
    subst this
    cases g with
    | zero => rfl
    | succ g2 => simp [subKafkaF, tryKafka, stripL, litKafka]
  | succ f2 ih =>
    intro g s hf hg
    cases g with
    | zero =>
      have : s = [] := by
        cases s with
        | nil => rfl
        | cons c t => simp at hg
      subst this
      simp [subKafkaF, tryKafka, stripL, litKafka]
    | succ g2 =>
      show subKafkaF off (f2 + 1) s = subKafkaF off (g2 + 1) s
      cases htk : tryKafka s with
      | some p =>
        obtain ⟨w, r⟩ := p
        have hr : r.length < s.length := tryKafka_rest_lt htk
        simp only [subKafkaF, htk]
        rw [ih g2 r (by omega) (by omega)]
      | none =>
        cases s with
        | nil => simp [subKafkaF, htk]
        | cons c t =>
          simp only [subKafkaF, htk]
          rw [ih g2 t (by simpa using hf) (by simpa using hg)]

theorem subKafka_match {s w r : List Char} (off : List Char)
    (h : tryKafka s = some (w, r)) : subKafka off s = replTextK off ++ subKafka off r := by
  have hr : r.length < s.length := tryKafka_rest_lt h
  have h0 : s.length = (s.length - 1) + 1 := by omega
  unfold subKafka
  rw [h0]
  simp only [subKafkaF, h]
  rw [subKafkaF_fuelInv off (s.length - 1) r.length r (by omega) (by omega)]

theorem subKafka_skip {c : Char} (off : List Char) (t : List Char)
    (h : tryKafka (c :: t) = none) : subKafka off (c :: t) = c :: subKafka off t := by
  unfold subKafka
  simp only [List.length_cons, subKafkaF, h]

theorem subKafka_nil (off : List Char) : subKafka off [] = [] := rfl

theorem subKafka_id_of_no_k (off s : List Char) (h : ∀ c ∈ s, c ≠ 'k') :
    subKafka off s = s := by
  induction s with
  | nil => rfl
  | cons c t ih =>
    rw [subKafka_skip off t (tryKafka_not_k t (h c (by simp)))]
    rw [ih (fun x hx => h x (by simp [hx]))]

theorem subKafka_app_of_no_k (off pre s : List Char) (h : ∀ c ∈ pre, c ≠ 'k') :
    subKafka off (pre ++ s) = pre ++ subKafka off s := by
  induction pre with
  | nil => simp
  | cons c t ih =>
    have : tryKafka (c :: (t ++ s)) = none := tryKafka_not_k _ (h c (by simp))
    rw [List.cons_append, subKafka_skip off _ this, ih (fun x hx => h x (by simp [hx]))]
    simp

theorem subKafka_canon (off new x : List Char) (hoff : ∀ c ∈ off, isOffCh c = true) :
    subKafka new (replTextK off ++ x) = replTextK new ++ subKafka new x :=
  subKafka_match new (tryKafka_canon off x hoff)

/-! ### The offsets computation -/

/-- Python `int(v)` applied to a decoded JSON value (`int(True) = 1`). -/
def pyIntOfJVal : JVal → Option Int
  | JVal.jint n => some n
  | JVal.jstr s => pyIntList s
  | JVal.jbool b => some (if b then 1 else 0)
  | _ => none

/-- Decorate each member with `int(key)`; `none` when some key is not
integer-like (the `sorted(..., key=int)` call raises). -/
def decorate : List (List Char × JVal) → Option (List (Int × (List Char × JVal)))
  | [] => some []
  | (k, v) :: t =>
    match pyIntList k, decorate t with
    | some n, some r => some ((n, (k, v)) :: r)
    | _, _ => none

/-- The sort key order used by `sorted(progress.keys(), key=lambda x: int(x))`. -/
def keyLe (a b : Int × (List Char × JVal)) : Prop := a.1 ≤ b.1

instance : DecidableRel keyLe := fun a b => inferInstanceAs (Decidable (a.1 ≤ b.1))

instance : IsTotal (Int × (List Char × JVal)) keyLe := ⟨fun a b => Int.le_total a.1 b.1⟩

instance : IsTrans (Int × (List Char × JVal)) keyLe := ⟨fun _ _ _ h1 h2 => le_trans h1 h2⟩

/-- CPython `sorted` is a stable sort; for a total preorder the stable sort
result is unique, and `List.insertionSort` (which inserts each element in
front of the first element not below it, i.e. keeps the original order of
elements with equal keys) is stable, so it models `sorted(..., key=int)`. -/
def sortKI (l : List (Int × (List Char × JVal))) : List (Int × (List Char × JVal)) :=
  List.insertionSort keyLe l

/-- Walk the sorted members computing `int(value) + 1` for each; `none` when
some value is not integer-like (the loop raises). -/
def traverseVals : List (Int × (List Char × JVal)) → Option (List Int)
  | [] => some []
  | (_, (_, v)) :: t =>
    match pyIntOfJVal v, traverseVals t with
    | some n, some r => some ((n + 1) :: r)
    | _, _ => none

/-- `", ".join(offsets)` with `str` applied to each. -/
def newOffsetsStr (offs : List Int) : List Char :=
  joinSep (',' :: ' ' :: []) (offs.map intStr)

/-- `progress_json.startswith(chr(123))`. -/
def startsWithLB : List Char → Bool
  | [] => false
  | c :: _ => c = lbrace

/-- Last step of `replace_kafka_offsets`: the loop `int(progress[k]) + 1`
over the sorted keys either raises (caught: text unchanged) or feeds the
joined offsets to `re.sub`. -/
def rkoStage4 (create_sql : List Char) : Option (List Int) → List Char
  | none => create_sql
  | some offs => subKafka (newOffsetsStr offs) create_sql

/-- `sorted(progress.keys(), key=lambda x: int(x))` either raises (caught)
or yields the sorted members. -/
def rkoStage3 (create_sql : List Char) :
    Option (List (Int × (List Char × JVal))) → List Char
  | none => create_sql
  | some dec => rkoStage4 create_sql (traverseVals (sortKI dec))

/-- `json.loads` either raises / yields a non-object (`.keys()` raises,
caught: text unchanged) or yields the member list. -/
def rkoStage2 (create_sql : List Char) : Option JVal → List Char
  | some (JVal.jobj kvs) => rkoStage3 create_sql (decorate kvs)
  | _ => create_sql

/-- `replace_kafka_offsets(create_sql, progress_json)`, source lines 131-153.
Any raised exception (JSON decode error, non-integer key or value, attribute
error on a non-object) is caught by the source and yields the input text. -/
def replace_kafka_offsets (create_sql progress_json : List Char) : List Char :=
  if startsWithLB progress_json then rkoStage2 create_sql (jsonLoads progress_json)
  else create_sql

theorem rkoStage2_obj (sql : List Char) (kvs : List (List Char × JVal)) :
    rkoStage2 sql (some (JVal.jobj kvs)) = rkoStage3 sql (decorate kvs) := rfl

theorem rkoStage2_none (sql : List Char) : rkoStage2 sql none = sql := rfl

theorem rkoStage3_some (sql : List Char) (dec : List (Int × (List Char × JVal))) :
    rkoStage3 sql (some dec) = rkoStage4 sql (traverseVals (sortKI dec)) := rfl

theorem rkoStage3_none (sql : List Char) : rkoStage3 sql none = sql := rfl

theorem rkoStage4_some (sql : List Char) (offs : List Int) :
    rkoStage4 sql (some offs) = subKafka (newOffsetsStr offs) sql := rfl

theorem rkoStage4_none (sql : List Char) : rkoStage4 sql none = sql := rfl

/-! ### The two sorts agree on distinct integer keys -/

/-- Strict version of the sort-key order. -/
def keyLt (a b : Int × (List Char × JVal)) : Prop := a.1 < b.1

instance : IsAntisymm (Int × (List Char × JVal)) keyLt :=
  ⟨fun _ _ h1 h2 => (lt_asymm h1 h2).elim⟩

theorem sorted_keyLt_of {l : List (Int × (List Char × JVal))}
    (h : List.Sorted keyLe l)
    (hd : (l.map Prod.fst).Pairwise (fun a b => a ≠ b)) : List.Sorted keyLt l := by
  have hd2 : l.Pairwise (fun a b => a.1 ≠ b.1) := List.pairwise_map.mp hd
  exact (h.and hd2).imp (fun h2 => lt_of_le_of_ne h2.1 h2.2)

/-- With pairwise-distinct integer keys the ascending order is unique, so
the source's stable sort and the specification's "sort ascending by integer
key" agree. -/
theorem sorts_agree (dec : List (Int × (List Char × JVal)))
    (hd : (dec.map Prod.fst).Pairwise (fun a b => a ≠ b)) :
    sortKI dec = dec.mergeSort (fun a b => decide (a.1 ≤ b.1)) := by
  have hperm1 : (sortKI dec).Perm dec := List.perm_insertionSort keyLe dec
  have hperm2 : (dec.mergeSort (fun a b => decide (a.1 ≤ b.1))).Perm dec :=
    List.mergeSort_perm dec _
  have hs1 : List.Sorted keyLe (sortKI dec) := List.sorted_insertionSort keyLe dec
  have hs2 : List.Sorted keyLe (dec.mergeSort (fun a b => decide (a.1 ≤ b.1))) := by
    have h := @List.sorted_mergeSort (Int × (List Char × JVal))
      (fun a b => decide (a.1 ≤ b.1))
      (fun a b c h1 h2 => by
        simp only [decide_eq_true_eq] at h1 h2 ⊢
        omega)
      (fun a b => by
        simp only [Bool.or_eq_true, decide_eq_true_eq]
        exact Int.le_total a.1 b.1) dec
    exact h.imp (fun h2 => by simpa using h2)
  have hd1 : ((sortKI dec).map Prod.fst).Pairwise (fun a b => a ≠ b) :=
    ((hperm1.map Prod.fst).symm).nodup hd
  have hd2 : ((dec.mergeSort (fun a b => decide (a.1 ≤ b.1))).map Prod.fst).Pairwise
      (fun a b => a ≠ b) :=
    ((hperm2.map Prod.fst).symm).nodup hd
  exact List.eq_of_perm_of_sorted (hperm1.trans hperm2.symm)
    (sorted_keyLt_of hs1 hd1) (sorted_keyLt_of hs2 hd2)

/-- Definition following the words of the specification (§8 first bullet and
§4.3 rule 1): output offsets equal `[value(k) + 1 for k in keys sorted by
int(k)]`, comma-space joined — with "sorted ascending by integer key value"
rendered by a merge sort on the key values, to be compared with the
insertion-based stable sort the source's `sorted` call performs. -/
def specNewOffsets (kvs : List (List Char × JVal)) : Option (List Char) :=
  (decorate kvs).bind (fun dec =>
    (traverseVals (dec.mergeSort (fun a b => decide (a.1 ≤ b.1)))).map newOffsetsStr)

/-! ### Claims C1, C2, C3, C10 -/

/-- Shared helper: `re.sub` on a text with exactly two canonical occurrences
of the pattern replaces both. -/
theorem subKafka_two_blocks (J pre mid post off1 off2 : List Char)
    (hpre : ∀ c ∈ pre, c ≠ 'k') (hmid : ∀ c ∈ mid, c ≠ 'k')
    (hpost : ∀ c ∈ post, c ≠ 'k')
    (hoff1 : ∀ c ∈ off1, isOffCh c = true) (hoff2 : ∀ c ∈ off2, isOffCh c = true) :
    subKafka J (pre ++ (replTextK off1 ++ (mid ++ (replTextK off2 ++ post))))
      = pre ++ (replTextK J ++ (mid ++ (replTextK J ++ post))) := by
  rw [subKafka_app_of_no_k J pre _ hpre]
  rw [subKafka_canon off1 J _ hoff1]
  rw [subKafka_app_of_no_k J mid _ hmid]
  rw [subKafka_canon off2 J _ hoff2]
  rw [subKafka_id_of_no_k J post hpost]

/-- C1, as stated, fails on the code: a progress value with leading
whitespace parses as a JSON object with integer-like keys, but the source's
`startswith` guard skips the replacement, so the text keeps its old offsets
instead of the incremented ones the claim prescribes. -/
theorem rko_c1_counterexample :
    jsonLoads " \x7b\"0\": \"1\"\x7d".toList
        = some (JVal.jobj [("0".toList, JVal.jstr "1".toList)])
      ∧ replace_kafka_offsets "kafka_offsets\" = \"5\"".toList " \x7b\"0\": \"1\"\x7d".toList
        = "kafka_offsets\" = \"5\"".toList
      ∧ replace_kafka_offsets "kafka_offsets\" = \"5\"".toList " \x7b\"0\": \"1\"\x7d".toList
        ≠ subKafka "2".toList "kafka_offsets\" = \"5\"".toList := by
  refine ⟨rfl, rfl, by decide⟩

/-- C1 (amended): for every progress value that starts with the opening
brace and parses as a JSON object whose keys are integer-like with pairwise
distinct values and whose values are integer-like, the function rewrites the
text with exactly the offsets prescribed by the specification formula:
values of the members sorted ascending by integer key, each incremented by
one, comma-space joined. -/
theorem rko_c1_offsets_formula (sql p : List Char)
    (kvs : List (List Char × JVal)) (dec : List (Int × (List Char × JVal)))
    (offs : List Int)
    (hp : ∃ t, p = lbrace :: t)
    (hjson : jsonLoads p = some (JVal.jobj kvs))
    (hdec : decorate kvs = some dec)
    (hdist : (dec.map Prod.fst).Pairwise (fun a b => a ≠ b))
    (hvals : traverseVals (sortKI dec) = some offs) :
    specNewOffsets kvs = some (newOffsetsStr offs)
      ∧ replace_kafka_offsets sql p = subKafka (newOffsetsStr offs) sql := by
  obtain ⟨t, rfl⟩ := hp
  constructor
  · unfold specNewOffsets
    rw [hdec]
    simp only [Option.some_bind]
    rw [← sorts_agree dec hdist, hvals]
    rfl
  · unfold replace_kafka_offsets
    have hlb : startsWithLB (lbrace :: t) = true := by simp [startsWithLB]
    rw [if_pos hlb, hjson, rkoStage2_obj, hdec, rkoStage3_some, hvals, rkoStage4_some]

theorem rko_c1_offsets_formula_witness :
    specNewOffsets [("1".toList, JVal.jstr "20".toList), ("0".toList, JVal.jstr "10".toList)]
        = some "11, 21".toList
      ∧ replace_kafka_offsets "kafka_offsets\" = \"10,20\"".toList
          "\x7b\"1\": \"20\", \"0\": \"10\"\x7d".toList
        = "kafka_offsets\" = \"11, 21\"".toList := by
  have h := rko_c1_offsets_formula "kafka_offsets\" = \"10,20\"".toList
    "\x7b\"1\": \"20\", \"0\": \"10\"\x7d".toList
    [("1".toList, JVal.jstr "20".toList), ("0".toList, JVal.jstr "10".toList)]
    [((1 : Int), ("1".toList, JVal.jstr "20".toList)),
      ((0 : Int), ("0".toList, JVal.jstr "10".toList))]
    [(11 : Int), (21 : Int)]
    ⟨"\"1\": \"20\", \"0\": \"10\"\x7d".toList, rfl⟩
    rfl rfl (by decide) rfl
  refine ⟨?_, ?_⟩
  · rw [h.1]; rfl
  · rw [h.2]; rfl

/-- C2, as stated, fails on the code: `re.sub` is called without a count, so
a second occurrence of the kafka-offsets pattern is rewritten too, while the
claim requires it to be left unchanged. -/
theorem rko_c2_counterexample :
    replace_kafka_offsets
        "a kafka_offsets\" = \"1,2\" b kafka_offsets\" = \"3\" c".toList
        "\x7b\"0\": \"9\"\x7d".toList
      = "a kafka_offsets\" = \"10\" b kafka_offsets\" = \"10\" c".toList
    ∧ "a kafka_offsets\" = \"10\" b kafka_offsets\" = \"10\" c".toList
      ≠ "a kafka_offsets\" = \"10\" b kafka_offsets\" = \"3\" c".toList := by
  refine ⟨rfl, by decide⟩

/-- C2 (amended): when the progress value parses as a JSON object and the
offsets replacement applies, `replace_kafka_offsets` replaces every
occurrence of the pattern `kafka_offsets" = "<digits/commas/spaces>"` in the
definition text with the new offsets, later occurrences included. -/
theorem rko_c2_all_occurrences (pre mid post off1 off2 p : List Char)
    (kvs : List (List Char × JVal)) (dec : List (Int × (List Char × JVal)))
    (offs : List Int)
    (hp : ∃ t, p = lbrace :: t)
    (hjson : jsonLoads p = some (JVal.jobj kvs))
    (hdec : decorate kvs = some dec)
    (hvals : traverseVals (sortKI dec) = some offs)
    (hpre : ∀ c ∈ pre, c ≠ 'k') (hmid : ∀ c ∈ mid, c ≠ 'k')
    (hpost : ∀ c ∈ post, c ≠ 'k')
    (hoff1 : ∀ c ∈ off1, isOffCh c = true) (hoff2 : ∀ c ∈ off2, isOffCh c = true) :
    replace_kafka_offsets
        (pre ++ replTextK off1 ++ mid ++ replTextK off2 ++ post) p
      = pre ++ replTextK (newOffsetsStr offs) ++ mid
          ++ replTextK (newOffsetsStr offs) ++ post := by
  obtain ⟨t, rfl⟩ := hp
  unfold replace_kafka_offsets
  have hlb : startsWithLB (lbrace :: t) = true := by simp [startsWithLB]
  rw [if_pos hlb, hjson, rkoStage2_obj, hdec, rkoStage3_some, hvals, rkoStage4_some]
  have h := subKafka_two_blocks (newOffsetsStr offs) pre mid post off1 off2
    hpre hmid hpost hoff1 hoff2
  simpa [List.append_assoc] using h

theorem rko_c2_all_occurrences_witness :
    replace_kafka_offsets
        ("a ".toList ++ replTextK "1,2".toList ++ " b ".toList
          ++ replTextK "3".toList ++ " c".toList)
        "\x7b\"0\": \"9\"\x7d".toList
      = "a ".toList ++ replTextK "10".toList ++ " b ".toList
          ++ replTextK "10".toList ++ " c".toList := by
  have h := rko_c2_all_occurrences "a ".toList " b ".toList " c".toList
    "1,2".toList "3".toList "\x7b\"0\": \"9\"\x7d".toList
    [("0".toList, JVal.jstr "9".toList)]
    [((0 : Int), ("0".toList, JVal.jstr "9".toList))]
    [(10 : Int)]
    ⟨"\"0\": \"9\"\x7d".toList, rfl⟩
    rfl rfl rfl
    (by decide) (by decide) (by decide) (by decide) (by decide)
  have hn : newOffsetsStr [(10 : Int)] = "10".toList := rfl
  rw [hn] at h
  exact h

/-- C3: for every progress value that is a string not starting with the
opening brace, or that fails to parse as JSON, or that parses to an object
with a non-integer-like key (making the key sort raise), the definition
text is returned unchanged. -/
theorem rko_c3_unchanged (sql p : List Char)
    (h : startsWithLB p = false ∨ jsonLoads p = none
      ∨ ∃ kvs, jsonLoads p = some (JVal.jobj kvs) ∧ decorate kvs = none) :
    replace_kafka_offsets sql p = sql := by
  unfold replace_kafka_offsets
  rcases h with h1 | h2 | ⟨kvs, h3, h4⟩
  · rw [if_neg (by simp [h1])]
  · by_cases hlb : startsWithLB p = true
    · rw [if_pos hlb, h2, rkoStage2_none]
    · rw [if_neg hlb]
  · by_cases hlb : startsWithLB p = true
    · rw [if_pos hlb, h3, rkoStage2_obj, h4, rkoStage3_none]
    · rw [if_neg hlb]

theorem rko_c3_unchanged_witness :
    replace_kafka_offsets "kafka_offsets\" = \"10,20\"".toList "OK".toList
        = "kafka_offsets\" = \"10,20\"".toList
      ∧ replace_kafka_offsets "kafka_offsets\" = \"10,20\"".toList
          "\x7b\"a\": \"1\"\x7d".toList
        = "kafka_offsets\" = \"10,20\"".toList := by
  constructor
  · exact rko_c3_unchanged _ _ (Or.inl rfl)
  · exact rko_c3_unchanged _ _ (Or.inr (Or.inr ⟨[("a".toList, JVal.jstr "1".toList)],
      rfl, rfl⟩))

/-- C10: on the progress value consisting of exactly the empty JSON object,
the rule is not skipped: every occurrence of the kafka-offsets pattern is
rewritten to the empty offsets value `kafka_offsets" = ""`. -/
theorem rko_c10_empty_object (pre mid post off1 off2 : List Char)
    (hpre : ∀ c ∈ pre, c ≠ 'k') (hmid : ∀ c ∈ mid, c ≠ 'k')
    (hpost : ∀ c ∈ post, c ≠ 'k')
    (hoff1 : ∀ c ∈ off1, isOffCh c = true) (hoff2 : ∀ c ∈ off2, isOffCh c = true) :
    replace_kafka_offsets
        (pre ++ replTextK off1 ++ mid ++ replTextK off2 ++ post) "\x7b\x7d".toList
      = pre ++ replTextK [] ++ mid ++ replTextK [] ++ post := by
  unfold replace_kafka_offsets
  rw [if_pos (by decide)]
  rw [show jsonLoads "\x7b\x7d".toList = some (JVal.jobj []) from rfl]
  rw [rkoStage2_obj]
  rw [show decorate ([] : List (List Char × JVal)) = some [] from rfl]
  rw [rkoStage3_some]
  rw [show traverseVals (sortKI []) = some [] from rfl, rkoStage4_some]
  have h := subKafka_two_blocks (newOffsetsStr []) pre mid post off1 off2
    hpre hmid hpost hoff1 hoff2
  have hn : newOffsetsStr [] = [] := rfl
  rw [hn] at h
  simpa [List.append_assoc] using h

theorem rko_c10_empty_object_witness :
    replace_kafka_offsets
        ("x ".toList ++ replTextK "5".toList ++ " y ".toList
          ++ replTextK "7".toList ++ " z".toList) "\x7b\x7d".toList
      = "x ".toList ++ replTextK [] ++ " y ".toList ++ replTextK [] ++ " z".toList :=
  rko_c10_empty_object "x ".toList " y ".toList " z".toList "5".toList "7".toList
    (by decide) (by decide) (by decide) (by decide) (by decide)

/-! ## `patch_create_sql_dbname`

Source lines 155-162.  The pattern is
`(CREATE\s+ROUTINE\s+LOAD\s+)(\w+)(\s+ON\s+)` with `count=1`; each `\s+` and
the `\w+` are followed by a character outside their class, so matching is
deterministic.  The replacement is group 1, then `<dbname>.<routinename>`
(the function's arguments, not the matched word), then group 3. -/

def litCREATE : List Char := 'C' :: 'R' :: 'E' :: 'A' :: 'T' :: 'E' :: []

def litROUTINE : List Char := 'R' :: 'O' :: 'U' :: 'T' :: 'I' :: 'N' :: 'E' :: []

def litLOAD : List Char := 'L' :: 'O' :: 'A' :: 'D' :: []

def litON : List Char := 'O' :: 'N' :: []

/-- Final stage: the trailing `\s+` of group 3 (at least one space). -/
def tryCRL6 (g1 w a4 : List Char) :
    List Char × List Char → Option (List Char × List Char × List Char × List Char)
  | (a5, rest) => if a5 = [] then none else some (g1, w, a4 ++ litON ++ a5, rest)

/-- After the captured word: `\s+ON` then the final run. -/
def tryCRL5 (g1 w : List Char) :
    List Char × List Char → Option (List Char × List Char × List Char × List Char)
  | (a4, s8) =>
    if a4 = [] then none
    else (stripL litON s8).bind (fun s9 => tryCRL6 g1 w a4 (spanP isSpc s9))

/-- The captured `\w+` word (at least one character). -/
def tryCRL4 (g1 : List Char) :
    List Char × List Char → Option (List Char × List Char × List Char × List Char)
  | (w, s7) => if w = [] then none else tryCRL5 g1 w (spanP isSpc s7)

/-- `\s+` after `LOAD`, then the word run. -/
def tryCRL3 (p1 p2 : List Char) :
    List Char × List Char → Option (List Char × List Char × List Char × List Char)
  | (a3, s6) =>
    if a3 = [] then none
    else tryCRL4 (litCREATE ++ p1 ++ litROUTINE ++ p2 ++ litLOAD ++ a3)
      (spanP isWordCh s6)

/-- `\s+` after `ROUTINE`, then `LOAD`. -/
def tryCRL2 (p1 : List Char) :
    List Char × List Char → Option (List Char × List Char × List Char × List Char)
  | (a2, s4) =>
    if a2 = [] then none
    else (stripL litLOAD s4).bind (fun s5 => tryCRL3 p1 a2 (spanP isSpc s5))

/-- `\s+` after `CREATE`, then `ROUTINE`. -/
def tryCRL1 : List Char × List Char → Option (List Char × List Char × List Char × List Char)
  | (a1, s2) =>
    if a1 = [] then none
    else (stripL litROUTINE s2).bind (fun s3 => tryCRL2 a1 (spanP isSpc s3))

/-- Attempt the create-header pattern at the head of `s`; on success return
the three groups and the remainder. -/
def tryCRL (s : List Char) : Option (List Char × List Char × List Char × List Char) :=
  (stripL litCREATE s).bind (fun s1 => tryCRL1 (spanP isSpc s1))

theorem tryCRL6_eq (g1 w a4 a5 rest : List Char) :
    tryCRL6 g1 w a4 (a5, rest)
      = if a5 = [] then none else some (g1, w, a4 ++ litON ++ a5, rest) := rfl

theorem tryCRL5_eq (g1 w a4 s8 : List Char) :
    tryCRL5 g1 w (a4, s8)
      = if a4 = [] then none
        else (stripL litON s8).bind (fun s9 => tryCRL6 g1 w a4 (spanP isSpc s9)) := rfl

theorem tryCRL4_eq (g1 w s7 : List Char) :
    tryCRL4 g1 (w, s7) = if w = [] then none else tryCRL5 g1 w (spanP isSpc s7) := rfl

theorem tryCRL3_eq (p1 p2 a3 s6 : List Char) :
    tryCRL3 p1 p2 (a3, s6)
      = if a3 = [] then none
        else tryCRL4 (litCREATE ++ p1 ++ litROUTINE ++ p2 ++ litLOAD ++ a3)
          (spanP isWordCh s6) := rfl

theorem tryCRL2_eq (p1 a2 s4 : List Char) :
    tryCRL2 p1 (a2, s4)
      = if a2 = [] then none
        else (stripL litLOAD s4).bind (fun s5 => tryCRL3 p1 a2 (spanP isSpc s5)) := rfl

theorem tryCRL1_eq (a1 s2 : List Char) :
    tryCRL1 (a1, s2)
      = if a1 = [] then none
        else (stripL litROUTINE s2).bind (fun s3 => tryCRL2 a1 (spanP isSpc s3)) := rfl

theorem tryCRL_sound {s g1 w g3 rest : List Char}
    (h : tryCRL s = some (g1, w, g3, rest)) :
    s = g1 ++ w ++ g3 ++ rest ∧ g1 ≠ [] := by
  unfold tryCRL at h
  cases hs1 : stripL litCREATE s with
  | none => rw [hs1] at h; exact absurd h (by simp)
  | some s1 =>
    rw [hs1] at h
    simp only [Option.some_bind] at h
    cases hp1 : spanP isSpc s1 with
    | mk a1 s2 =>
      rw [hp1, tryCRL1_eq] at h
      by_cases ha1 : a1 = []
      · rw [if_pos ha1] at h; exact absurd h (by simp)
      rw [if_neg ha1] at h
      cases hs3 : stripL litROUTINE s2 with
      | none => rw [hs3] at h; exact absurd h (by simp)
      | some s3 =>
        rw [hs3] at h
        simp only [Option.some_bind] at h
        cases hp2 : spanP isSpc s3 with
        | mk a2 s4 =>
          rw [hp2, tryCRL2_eq] at h
          by_cases ha2 : a2 = []
          · rw [if_pos ha2] at h; exact absurd h (by simp)
          rw [if_neg ha2] at h
          cases hs5 : stripL litLOAD s4 with
          | none => rw [hs5] at h; exact absurd h (by simp)
          | some s5 =>
            rw [hs5] at h
            simp only [Option.some_bind] at h
            cases hp3 : spanP isSpc s5 with
            | mk a3 s6 =>
              rw [hp3, tryCRL3_eq] at h
              by_cases ha3 : a3 = []
              · rw [if_pos ha3] at h; exact absurd h (by simp)
              rw [if_neg ha3] at h
              cases hp4 : spanP isWordCh s6 with
              | mk wd s7 =>
                rw [hp4, tryCRL4_eq] at h
                by_cases hw : wd = []
                · rw [if_pos hw] at h; exact absurd h (by simp)
                rw [if_neg hw] at h
                cases hp5 : spanP isSpc s7 with
                | mk a4 s8 =>
                  rw [hp5, tryCRL5_eq] at h
                  by_cases ha4 : a4 = []
                  · rw [if_pos ha4] at h; exact absurd h (by simp)
                  rw [if_neg ha4] at h
                  cases hs9 : stripL litON s8 with
                  | none => rw [hs9] at h; exact absurd h (by simp)
                  | some s9 =>
                    rw [hs9] at h
                    simp only [Option.some_bind] at h
                    cases hp6 : spanP isSpc s9 with
                    | mk a5 rest2 =>
                      rw [hp6, tryCRL6_eq] at h
                      by_cases ha5 : a5 = []
                      · rw [if_pos ha5] at h; exact absurd h (by simp)
                      rw [if_neg ha5] at h
                      simp only [Option.some.injEq, Prod.mk.injEq] at h
                      obtain ⟨hg1, hw2, hg3, hrest⟩ := h
                      subst hg1; subst hw2; subst hg3; subst hrest
                      have e1 := stripL_eq _ _ _ hs1
                      have e2 := (spanP_eq _ _ _ _ hp1).1
                      have e3 := stripL_eq _ _ _ hs3
                      have e4 := (spanP_eq _ _ _ _ hp2).1
                      have e5 := stripL_eq _ _ _ hs5
                      have e6 := (spanP_eq _ _ _ _ hp3).1
                      have e7 := (spanP_eq _ _ _ _ hp4).1
                      have e8 := (spanP_eq _ _ _ _ hp5).1
                      have e9 := stripL_eq _ _ _ hs9
                      have e10 := (spanP_eq _ _ _ _ hp6).1
                      subst e1; subst e2; subst e3; subst e4; subst e5
                      subst e6; subst e7; subst e8; subst e9; subst e10
                      constructor
                      · simp [litCREATE, litROUTINE, litLOAD, litON]
                      · simp [litCREATE]

theorem tryCRL_rest_lt {s g1 w g3 rest : List Char}
    (h : tryCRL s = some (g1, w, g3, rest)) : rest.length < s.length := by
  obtain ⟨hs, hg⟩ := tryCRL_sound h
  subst hs
  cases g1 with
  | nil => exact absurd rfl hg
  | cons a b => simp only [List.length_append, List.length_cons]; omega

theorem tryCRL_not_C {c : Char} (t : List Char) (h : c ≠ 'C') :
    tryCRL (c :: t) = none := by
  have : stripL litCREATE (c :: t) = none :=
    stripL_head_ne c litCREATE t (by simpa [litCREATE] using h) (by simp [litCREATE])
  simp [tryCRL, this]

/-- The canonical header text `CREATE ROUTINE LOAD <w> ON ` . -/
def crlHeader (w : List Char) : List Char :=
  litCREATE ++ ' ' :: (litROUTINE ++ ' ' :: (litLOAD ++ ' ' :: (w ++ ' ' :: (litON ++ [' ']))))

/-- Group 1 and group 3 of a canonical header. -/
def crlG1 : List Char := litCREATE ++ ' ' :: (litROUTINE ++ ' ' :: (litLOAD ++ [' ']))

def crlG3 : List Char := ' ' :: (litON ++ [' '])

theorem tryCRL_canon (w x : List Char) (hw : w ≠ []) (hwd : ∀ c ∈ w, isWordCh c = true)
    (hx : headNotP isSpc x) :
    tryCRL (crlHeader w ++ x) = some (crlG1, w, crlG3, x) := by
  have h1 : stripL litCREATE (crlHeader w ++ x)
      = some (' ' :: (litROUTINE ++ ' ' :: (litLOAD ++ ' ' :: (w ++ ' ' :: (litON ++ ' ' :: x))))) := by
    have : crlHeader w ++ x
        = litCREATE ++ (' ' :: (litROUTINE ++ ' ' :: (litLOAD ++ ' ' :: (w ++ ' ' :: (litON ++ ' ' :: x))))) := by
      simp [crlHeader]
    rw [this, stripL_app]
  have h2 : spanP isSpc (' ' :: (litROUTINE ++ ' ' :: (litLOAD ++ ' ' :: (w ++ ' ' :: (litON ++ ' ' :: x)))))
      = ([' '], litROUTINE ++ ' ' :: (litLOAD ++ ' ' :: (w ++ ' ' :: (litON ++ ' ' :: x)))) := by
    have := spanP_app isSpc [' ']
      (litROUTINE ++ ' ' :: (litLOAD ++ ' ' :: (w ++ ' ' :: (litON ++ ' ' :: x))))
      (by intro c hc; simp at hc; simp [hc, isSpc])
      (by show isSpc 'R' = false; decide)
    simpa using this
  have h3 : stripL litROUTINE (litROUTINE ++ ' ' :: (litLOAD ++ ' ' :: (w ++ ' ' :: (litON ++ ' ' :: x))))
      = some (' ' :: (litLOAD ++ ' ' :: (w ++ ' ' :: (litON ++ ' ' :: x)))) := stripL_app _ _
  have h4 : spanP isSpc (' ' :: (litLOAD ++ ' ' :: (w ++ ' ' :: (litON ++ ' ' :: x))))
      = ([' '], litLOAD ++ ' ' :: (w ++ ' ' :: (litON ++ ' ' :: x))) := by
    have := spanP_app isSpc [' '] (litLOAD ++ ' ' :: (w ++ ' ' :: (litON ++ ' ' :: x)))
      (by intro c hc; simp at hc; simp [hc, isSpc])
      (by show isSpc 'L' = false; decide)
    simpa using this
  have h5 : stripL litLOAD (litLOAD ++ ' ' :: (w ++ ' ' :: (litON ++ ' ' :: x)))
      = some (' ' :: (w ++ ' ' :: (litON ++ ' ' :: x))) := stripL_app _ _
  have h6 : spanP isSpc (' ' :: (w ++ ' ' :: (litON ++ ' ' :: x)))
      = ([' '], w ++ ' ' :: (litON ++ ' ' :: x)) := by
    have hnw : headNotP isSpc (w ++ ' ' :: (litON ++ ' ' :: x)) := by
      cases w with
      | nil => exact absurd rfl hw
      | cons c t =>
        have hword := hwd c (by simp)
        show isSpc c = false
        by_contra hc
        have hc2 : isSpc c = true := by simpa using hc
        unfold isSpc at hc2
        simp only [Bool.or_eq_true, decide_eq_true_eq] at hc2
        rcases hc2 with ((((rfl | rfl) | rfl) | rfl) | rfl) | rfl <;>
          exact absurd hword (by decide)
    have := spanP_app isSpc [' '] (w ++ ' ' :: (litON ++ ' ' :: x))
      (by intro c hc; simp at hc; simp [hc, isSpc]) hnw
    simpa using this
  have h7 : spanP isWordCh (w ++ ' ' :: (litON ++ ' ' :: x))
      = (w, ' ' :: (litON ++ ' ' :: x)) :=
    spanP_app isWordCh w (' ' :: (litON ++ ' ' :: x)) hwd
      (by show isWordCh ' ' = false; decide)
  have h8 : spanP isSpc (' ' :: (litON ++ ' ' :: x)) = ([' '], litON ++ ' ' :: x) := by
    have := spanP_app isSpc [' '] (litON ++ ' ' :: x)
      (by intro c hc; simp at hc; simp [hc, isSpc])
      (by show isSpc 'O' = false; decide)
    simpa using this
  have h9 : stripL litON (litON ++ ' ' :: x) = some (' ' :: x) := stripL_app _ _
  have h10 : spanP isSpc (' ' :: x) = ([' '], x) := by
    have := spanP_app isSpc [' '] x (by intro c hc; simp at hc; simp [hc, isSpc]) hx
    simpa using this
  unfold tryCRL
  rw [h1]
  simp only [Option.some_bind]
  rw [h2, tryCRL1_eq, if_neg (by simp), h3]
  simp only [Option.some_bind]
  rw [h4, tryCRL2_eq, if_neg (by simp), h5]
  simp only [Option.some_bind]
  rw [h6, tryCRL3_eq, if_neg (by simp), h7, tryCRL4_eq, if_neg hw, h8,
    tryCRL5_eq, if_neg (by simp), h9]
  simp only [Option.some_bind]
  rw [h10, tryCRL6_eq, if_neg (by simp)]
  simp [crlG1, crlG3]

/-- Fuel-indexed embedding of `re.sub(pattern, replacement, s, count=1)`:
only the first match is replaced, the remainder is emitted verbatim. -/
def subCRL1F (db nm : List Char) : Nat → List Char → List Char
  | 0, s => s
  | f + 1, s =>
    match tryCRL s with
    | some (g1, _, g3, rest) => g1 ++ (db ++ '.' :: nm) ++ g3 ++ rest
    | none =>
      match s with
      | [] => []
      | c :: t => c :: subCRL1F db nm f t

/-- `patch_create_sql_dbname(create_sql, dbname, routinename)`, source lines
155-162. -/
def patch_create_sql_dbname (create_sql dbname routinename : List Char) : List Char :=
  subCRL1F dbname routinename create_sql.length create_sql

theorem subCRL1F_fuelInv (db nm : List Char) :
    ∀ f g s, s.length ≤ f → s.length ≤ g →
      subCRL1F db nm f s = subCRL1F db nm g s := by
  intro f
  induction f with
  | zero =>
    intro g s hf _
    have : s = [] := by
      cases s with
      | nil => rfl
      | cons c t => simp at hf
    subst this
    cases g with
    | zero => rfl
    | succ g2 => simp [subCRL1F, tryCRL, stripL, litCREATE]
  | succ f2 ih =>
    intro g s hf hg
    cases g with
    | zero =>
      have : s = [] := by
        cases s with
        | nil => rfl
        | cons c t => simp at hg
      subst this
      simp [subCRL1F, tryCRL, stripL, litCREATE]
    | succ g2 =>
      show subCRL1F db nm (f2 + 1) s = subCRL1F db nm (g2 + 1) s
      cases htk : tryCRL s with
      | some p =>
        obtain ⟨g1, w, g3, rest⟩ := p
        simp only [subCRL1F, htk]
      | none =>
        cases s with
        | nil => simp [subCRL1F, htk]
        | cons c t =>
          simp only [subCRL1F, htk]
          rw [ih g2 t (by simpa using hf) (by simpa using hg)]

theorem subCRL1_match {s g1 w g3 rest : List Char} (db nm : List Char)
    (h : tryCRL s = some (g1, w, g3, rest)) :
    patch_create_sql_dbname s db nm = g1 ++ (db ++ '.' :: nm) ++ g3 ++ rest := by
  have hr : rest.length < s.length := tryCRL_rest_lt h
  have h0 : s.length = (s.length - 1) + 1 := by omega
  unfold patch_create_sql_dbname
  rw [h0]
  simp only [subCRL1F, h]

theorem subCRL1_skip {c : Char} (db nm : List Char) (t : List Char)
    (h : tryCRL (c :: t) = none) :
    patch_create_sql_dbname (c :: t) db nm = c :: patch_create_sql_dbname t db nm := by
  unfold patch_create_sql_dbname
  simp only [List.length_cons, subCRL1F, h]

theorem patch_crl_id_of_no_C (db nm s : List Char) (h : ∀ c ∈ s, c ≠ 'C') :
    patch_create_sql_dbname s db nm = s := by
  induction s with
  | nil => rfl
  | cons c t ih =>
    rw [subCRL1_skip db nm t (tryCRL_not_C t (h c (by simp)))]
    rw [ih (fun x hx => h x (by simp [hx]))]

theorem patch_crl_app_of_no_C (db nm pre s : List Char) (h : ∀ c ∈ pre, c ≠ 'C') :
    patch_create_sql_dbname (pre ++ s) db nm = pre ++ patch_create_sql_dbname s db nm := by
  induction pre with
  | nil => simp
  | cons c t ih =>
    have : tryCRL (c :: (t ++ s)) = none := tryCRL_not_C _ (h c (by simp))
    rw [List.cons_append, subCRL1_skip db nm _ this, ih (fun x hx => h x (by simp [hx]))]
    simp

/-- C5: the first occurrence of a `CREATE ROUTINE LOAD <name> ON` header is
rewritten to `CREATE ROUTINE LOAD <schema>.<name> ON`; a later header is
left untouched, and a text with no header (here: no `C` at all, so the
pattern cannot start anywhere) is returned unchanged. -/
theorem patch_crl_c5 (pre mid post nm w2 db : List Char)
    (hpre : ∀ c ∈ pre, c ≠ 'C')
    (hnm : nm ≠ []) (hnmw : ∀ c ∈ nm, isWordCh c = true)
    (hmid : headNotP isSpc (mid ++ (crlHeader w2 ++ post))) :
    patch_create_sql_dbname
        (pre ++ crlHeader nm ++ mid ++ crlHeader w2 ++ post) db nm
      = pre ++ crlG1 ++ (db ++ '.' :: nm) ++ crlG3 ++ mid ++ crlHeader w2 ++ post
    ∧ ∀ s, (∀ c ∈ s, c ≠ 'C') → patch_create_sql_dbname s db nm = s := by
  refine ⟨?_, fun s hs => patch_crl_id_of_no_C db nm s hs⟩
  have e1 : pre ++ crlHeader nm ++ mid ++ crlHeader w2 ++ post
      = pre ++ (crlHeader nm ++ (mid ++ (crlHeader w2 ++ post))) := by
    simp [List.append_assoc]
  rw [e1, patch_crl_app_of_no_C db nm pre _ hpre]
  rw [subCRL1_match db nm (tryCRL_canon nm (mid ++ (crlHeader w2 ++ post)) hnm hnmw hmid)]
  simp [List.append_assoc]

theorem patch_crl_c5_witness :
    patch_create_sql_dbname
        ("x ".toList ++ crlHeader "job1".toList ++ "t1 ".toList
          ++ crlHeader "job2".toList ++ "t2".toList) "db1".toList "job1".toList
      = "x ".toList ++ crlG1 ++ ("db1".toList ++ '.' :: "job1".toList) ++ crlG3
          ++ "t1 ".toList ++ crlHeader "job2".toList ++ "t2".toList :=
  (patch_crl_c5 "x ".toList "t1 ".toList "t2".toList "job1".toList "job2".toList
    "db1".toList (by decide) (by decide) (by decide) (by decide)).1

/-! ## `patch_group_id`

Source lines 164-174.  The pattern is `"property\.group.id"\s*=\s*"([^"]+)"`
(note: the character between `group` and `id` is an unescaped `.`, matching
any character but a newline).  `re.sub` has no count, so every occurrence is
processed; a captured value already ending in `_new` is kept verbatim, any
other is rewritten to the normalised
`"property.group.id" = "<value>_new"`. -/

/-- The 14 literal characters `property.group` after the opening quote. -/
def restProp : List Char :=
  'p' :: 'r' :: 'o' :: 'p' :: 'e' :: 'r' :: 't' :: 'y' :: '.' :: 'g' :: 'r' :: 'o' :: 'u' :: 'p' :: []

/-- The literal `"property.group` (with the escaped dot). -/
def litProp : List Char := '"' :: restProp

/-- The literal `id"` that follows the wildcard character. -/
def litID : List Char := 'i' :: 'd' :: '"' :: []

/-- The regex class `[^"]`. -/
def notQuote (c : Char) : Bool := c != '"'

/-- The suffix `_new`. -/
def sufNew : List Char := '_' :: 'n' :: 'e' :: 'w' :: []

/-- `old_value.endswith("_new")`. -/
def endsNew (v : List Char) : Bool :=
  match v.reverse with
  | 'w' :: 'e' :: 'n' :: '_' :: _ => true
  | _ => false

theorem endsNew_iff (v : List Char) : endsNew v = true ↔ ∃ a, v = a ++ sufNew := by
  constructor
  · intro h
    unfold endsNew at h
    cases hr : v.reverse with
    | nil => rw [hr] at h; simp at h
    | cons c1 t1 =>
      cases t1 with
      | nil =>
        rw [hr] at h
        by_cases h1 : c1 = 'w' <;> simp [h1] at h
      | cons c2 t2 =>
        cases t2 with
        | nil =>
          rw [hr] at h
          by_cases h1 : c1 = 'w' <;> by_cases h2 : c2 = 'e' <;> simp [h1, h2] at h
        | cons c3 t3 =>
          cases t3 with
          | nil =>
            rw [hr] at h
            by_cases h1 : c1 = 'w' <;> by_cases h2 : c2 = 'e' <;>
              by_cases h3 : c3 = 'n' <;> simp [h1, h2, h3] at h
          | cons c4 t4 =>
            rw [hr] at h
            by_cases h1 : c1 = 'w'
            · by_cases h2 : c2 = 'e'
              · by_cases h3 : c3 = 'n'
                · by_cases h4 : c4 = '_'
                  · subst h1; subst h2; subst h3; subst h4
                    refine ⟨t4.reverse, ?_⟩
                    have : v = v.reverse.reverse := by simp
                    rw [this, hr]
                    simp [sufNew]
                  · simp [h1, h2, h3, h4] at h
                · simp [h1, h2, h3] at h
              · simp [h1, h2] at h
            · simp [h1] at h
  · rintro ⟨a, rfl⟩
    unfold endsNew
    have : (a ++ sufNew).reverse = 'w' :: 'e' :: 'n' :: '_' :: a.reverse := by
      simp [sufNew]
    rw [this]
    rfl

/-- The full text of one match: literal, wildcard character, literal,
whitespace, `=`, whitespace, quote, value, quote. -/
def mkWhole (c : Char) (w1 w2 v : List Char) : List Char :=
  litProp ++ c :: (litID ++ (w1 ++ '=' :: (w2 ++ '"' :: (v ++ ['"']))))

/-- What it means for `w` to be exactly a match of the group-id pattern with
captured value `v`. -/
def IsWhole (w v : List Char) : Prop :=
  ∃ c w1 w2, w = mkWhole c w1 w2 v ∧ c ≠ '\n' ∧ (∀ x ∈ w1, isSpc x = true) ∧
    (∀ x ∈ w2, isSpc x = true) ∧ v ≠ [] ∧ (∀ x ∈ v, x ≠ '"')

theorem spc_ne_quote {x : Char} (h : isSpc x = true) : x ≠ '"' := by
  intro hx
  subst hx
  simp [isSpc] at h

/-- Stage 4: the captured `[^"]+` value (nonempty) and its closing quote. -/
def tryGID4 (c : Char) (w1 w2 : List Char) :
    List Char × List Char → Option (List Char × List Char × List Char)
  | (v, d :: s9) =>
    if v = [] then none
    else if d = '"' then some (mkWhole c w1 w2 v, v, s9) else none
  | (_, []) => none

/-- Stage 3: after `=`, greedy `\s*` then the opening quote of the value. -/
def tryGID3 (c : Char) (w1 : List Char) :
    List Char × List Char → Option (List Char × List Char × List Char)
  | (w2, d :: s7) => if d = '"' then tryGID4 c w1 w2 (spanP notQuote s7) else none
  | (_, []) => none

/-- Stage 2: after `id"`, greedy `\s*` then `=`. -/
def tryGID2 (c : Char) : List Char × List Char → Option (List Char × List Char × List Char)
  | (w1, d :: s5) => if d = '=' then tryGID3 c w1 (spanP isSpc s5) else none
  | (_, []) => none

/-- Attempt the group-id pattern at the head of `s`; on success return the
whole match, the captured value and the remainder. -/
def tryGID (s : List Char) : Option (List Char × List Char × List Char) :=
  (stripL litProp s).bind (fun s1 =>
    match s1 with
    | [] => none
    | c :: s2 =>
      if c = '\n' then none
      else (stripL litID s2).bind (fun s3 => tryGID2 c (spanP isSpc s3)))

theorem tryGID4_eq (c : Char) (w1 w2 v : List Char) (d : Char) (s9 : List Char) :
    tryGID4 c w1 w2 (v, d :: s9)
      = if v = [] then none
        else if d = '"' then some (mkWhole c w1 w2 v, v, s9) else none := rfl

theorem tryGID4_nilR (c : Char) (w1 w2 v : List Char) : tryGID4 c w1 w2 (v, []) = none := rfl

theorem tryGID3_eq (c : Char) (w1 w2 : List Char) (d : Char) (s7 : List Char) :
    tryGID3 c w1 (w2, d :: s7)
      = if d = '"' then tryGID4 c w1 w2 (spanP notQuote s7) else none := rfl

theorem tryGID3_nilR (c : Char) (w1 w2 : List Char) : tryGID3 c w1 (w2, []) = none := rfl

theorem tryGID2_eq (c : Char) (w1 : List Char) (d : Char) (s5 : List Char) :
    tryGID2 c (w1, d :: s5)
      = if d = '=' then tryGID3 c w1 (spanP isSpc s5) else none := rfl

theorem tryGID2_nilR (c : Char) (w1 : List Char) : tryGID2 c (w1, []) = none := rfl

theorem tryGID_sound {s w v r : List Char} (h : tryGID s = some (w, v, r)) :
    IsWhole w v ∧ s = w ++ r := by
  unfold tryGID at h
  cases hs1 : stripL litProp s with
  | none => rw [hs1] at h; exact absurd h (by simp)
  | some s1 =>
    rw [hs1] at h
    simp only [Option.some_bind] at h
    cases s1 with
    | nil => exact absurd h (by simp)
    | cons c s2 =>
      simp only at h
      by_cases hc : c = '\n'
      · rw [if_pos hc] at h; exact absurd h (by simp)
      rw [if_neg hc] at h
      cases hs3 : stripL litID s2 with
      | none => rw [hs3] at h; exact absurd h (by simp)
      | some s3 =>
        rw [hs3] at h
        simp only [Option.some_bind] at h
        cases hp1 : spanP isSpc s3 with
        | mk w1 s4 =>
          rw [hp1] at h
          cases s4 with
          | nil => rw [tryGID2_nilR] at h; exact absurd h (by simp)
          | cons d1 s5 =>
            by_cases hd1 : d1 = '='
            · subst hd1
              rw [tryGID2_eq, if_pos rfl] at h
              cases hp2 : spanP isSpc s5 with
              | mk w2 s6 =>
                rw [hp2] at h
                cases s6 with
                | nil => rw [tryGID3_nilR] at h; exact absurd h (by simp)
                | cons d2 s7 =>
                  by_cases hd2 : d2 = '"'
                  · subst hd2
                    rw [tryGID3_eq, if_pos rfl] at h
                    cases hp3 : spanP notQuote s7 with
                    | mk vr s8 =>
                      rw [hp3] at h
                      cases s8 with
                      | nil => rw [tryGID4_nilR] at h; exact absurd h (by simp)
                      | cons d3 s9 =>
                        by_cases hv : vr = []
                        · rw [tryGID4_eq, if_pos hv] at h; exact absurd h (by simp)
                        by_cases hd3 : d3 = '"'
                        · subst hd3
                          rw [tryGID4_eq, if_neg hv, if_pos rfl] at h
                          simp only [Option.some.injEq, Prod.mk.injEq] at h
                          obtain ⟨hw, hv2, hr⟩ := h
                          subst hw; subst hv2; subst hr
                          have e1 := stripL_eq _ _ _ hs1
                          have e3 := stripL_eq _ _ _ hs3
                          obtain ⟨e2a, e2b, _⟩ := spanP_eq _ _ _ _ hp1
                          obtain ⟨e4a, e4b, _⟩ := spanP_eq _ _ _ _ hp2
                          obtain ⟨e5a, e5b, _⟩ := spanP_eq _ _ _ _ hp3
                          subst e1; subst e3; subst e2a; subst e4a; subst e5a
                          constructor
                          · refine ⟨c, w1, w2, rfl, hc, e2b, e4b, hv, ?_⟩
                            intro x hx
                            have := e5b x hx
                            simpa [notQuote] using this
                          · simp [mkWhole, litProp, litID, List.append_assoc]
                        · rw [tryGID4_eq, if_neg hv, if_neg hd3] at h
                          exact absurd h (by simp)
                  · rw [tryGID3_eq, if_neg hd2] at h; exact absurd h (by simp)
            · rw [tryGID2_eq, if_neg hd1] at h; exact absurd h (by simp)

theorem tryGID_complete {w v : List Char} (hw : IsWhole w v) (x : List Char) :
    tryGID (w ++ x) = some (w, v, x) := by
  obtain ⟨c, w1, w2, rfl, hc, hw1, hw2, hv, hvq⟩ := hw
  have h1 : stripL litProp (mkWhole c w1 w2 v ++ x)
      = some (c :: (litID ++ (w1 ++ '=' :: (w2 ++ '"' :: (v ++ '"' :: x))))) := by
    have : mkWhole c w1 w2 v ++ x
        = litProp ++ (c :: (litID ++ (w1 ++ '=' :: (w2 ++ '"' :: (v ++ '"' :: x))))) := by
      simp [mkWhole, List.append_assoc]
    rw [this, stripL_app]
  have h3 : stripL litID (litID ++ (w1 ++ '=' :: (w2 ++ '"' :: (v ++ '"' :: x))))
      = some (w1 ++ '=' :: (w2 ++ '"' :: (v ++ '"' :: x))) := stripL_app _ _
  have h4 : spanP isSpc (w1 ++ '=' :: (w2 ++ '"' :: (v ++ '"' :: x)))
      = (w1, '=' :: (w2 ++ '"' :: (v ++ '"' :: x))) :=
    spanP_app isSpc w1 _ hw1 (by show isSpc '=' = false; decide)
  have h5 : spanP isSpc (w2 ++ '"' :: (v ++ '"' :: x)) = (w2, '"' :: (v ++ '"' :: x)) :=
    spanP_app isSpc w2 _ hw2 (by show isSpc '"' = false; decide)
  have h6 : spanP notQuote (v ++ '"' :: x) = (v, '"' :: x) :=
    spanP_app notQuote v _ (fun y hy => by simpa [notQuote] using hvq y hy)
      (by show notQuote '"' = false; decide)
  unfold tryGID
  rw [h1]
  simp only [Option.some_bind]
  rw [if_neg hc, h3]
  simp only [Option.some_bind]
  rw [h4, tryGID2_eq, if_pos rfl, h5, tryGID3_eq, if_pos rfl, h6,
    tryGID4_eq, if_neg hv, if_pos rfl]

theorem isWhole_ne_nil {w v : List Char} (hw : IsWhole w v) : w ≠ [] := by
  obtain ⟨c, w1, w2, rfl, _⟩ := hw
  simp [mkWhole, litProp]

theorem tryGID_rest_lt {s w v r : List Char} (h : tryGID s = some (w, v, r)) :
    r.length < s.length := by
  obtain ⟨hw, hs⟩ := tryGID_sound h
  subst hs
  have := isWhole_ne_nil hw
  cases w with
  | nil => exact absurd rfl this
  | cons a b => simp only [List.length_append, List.length_cons]; omega

/-- The normalised replacement `"property.group.id" = "<v>_new"` the
source's `repl` callback produces for a value not ending in `_new`. -/
def normBlock (v : List Char) : List Char := mkWhole '.' [' '] [' '] (v ++ sufNew)

theorem isWhole_normBlock {w v : List Char} (hw : IsWhole w v) :
    IsWhole (normBlock v) (v ++ sufNew) := by
  obtain ⟨c, w1, w2, _, _, _, _, hv, hvq⟩ := hw
  refine ⟨'.', [' '], [' '], rfl, by decide, by decide, by decide, by simp [sufNew], ?_⟩
  intro x hx
  rcases List.mem_append.mp hx with h1 | h1
  · exact hvq x h1
  · simp [sufNew] at h1
    rcases h1 with rfl | rfl | rfl | rfl <;> decide

theorem endsNew_normBlock (v : List Char) : endsNew (v ++ sufNew) = true :=
  (endsNew_iff _).mpr ⟨v, rfl⟩

/-- Fuel-indexed embedding of
`re.sub(r'"property\.group.id"\s*=\s*"([^"]+)"', repl, s)`. -/
def subGIDF : Nat → List Char → List Char
  | 0, s => s
  | f + 1, s =>
    match tryGID s with
    | some (w, v, r) => (if endsNew v then w else normBlock v) ++ subGIDF f r
    | none =>
      match s with
      | [] => []
      | c :: t => c :: subGIDF f t

/-- `patch_group_id(create_sql)`, source lines 164-174. -/
def patch_group_id (create_sql : List Char) : List Char :=
  subGIDF create_sql.length create_sql

theorem subGIDF_fuelInv :
    ∀ f g s, s.length ≤ f → s.length ≤ g → subGIDF f s = subGIDF g s := by
  intro f
  induction f with
  | zero =>
    intro g s hf _
    have : s = [] := by
      cases s with
      | nil => rfl
      | cons c t => simp at hf
    subst this
    cases g with
    | zero => rfl
    | succ g2 => simp [subGIDF, tryGID, stripL, litProp]
  | succ f2 ih =>
    intro g s hf hg
    cases g with
    | zero =>
      have : s = [] := by
        cases s with
        | nil => rfl
        | cons c t => simp at hg
      subst this
      simp [subGIDF, tryGID, stripL, litProp]
    | succ g2 =>
      show subGIDF (f2 + 1) s = subGIDF (g2 + 1) s
      cases htk : tryGID s with
      | some p =>
        obtain ⟨w, v, r⟩ := p
        have hr : r.length < s.length := tryGID_rest_lt htk
        simp only [subGIDF, htk]
        rw [ih g2 r (by omega) (by omega)]
      | none =>
        cases s with
        | nil => simp [subGIDF, htk]
        | cons c t =>
          simp only [subGIDF, htk]
          rw [ih g2 t (by simpa using hf) (by simpa using hg)]

theorem subGID_match {s w v r : List Char} (h : tryGID s = some (w, v, r)) :
    patch_group_id s
      = (if endsNew v then w else normBlock v) ++ patch_group_id r := by
  have hr : r.length < s.length := tryGID_rest_lt h
  have h0 : s.length = (s.length - 1) + 1 := by omega
  unfold patch_group_id
  rw [h0]
  simp only [subGIDF, h]
  rw [subGIDF_fuelInv (s.length - 1) r.length r (by omega) (by omega)]

theorem subGID_skip {c : Char} {t : List Char} (h : tryGID (c :: t) = none) :
    patch_group_id (c :: t) = c :: patch_group_id t := by
  unfold patch_group_id
  simp only [List.length_cons, subGIDF, h]

/-- Simulation between an input of `patch_group_id` and its output: the
output consists of full matches whose value ends in `_new` (replacement
blocks or matches kept verbatim) interleaved with the characters at which
the scanner found no match. -/
inductive Rel : List Char → List Char → Prop where
  | nil : Rel [] []
  | block {w v B vB a b : List Char} :
      IsWhole w v → IsWhole B vB → endsNew vB = true → Rel a b → Rel (w ++ a) (B ++ b)
  | step {c : Char} {a b : List Char} :
      tryGID (c :: a) = none → Rel a b → Rel (c :: a) (c :: b)

theorem subGID_rel_aux : ∀ n s, s.length ≤ n → Rel s (patch_group_id s) := by
  intro n
  induction n with
  | zero =>
    intro s hs
    have : s = [] := by
      cases s with
      | nil => rfl
      | cons c t => simp at hs
    subst this
    exact Rel.nil
  | succ n2 ih =>
    intro s hs
    cases htg : tryGID s with
    | some p =>
      obtain ⟨w, v, r⟩ := p
      obtain ⟨hW, hsEq⟩ := tryGID_sound htg
      have hr : r.length < s.length := tryGID_rest_lt htg
      rw [subGID_match htg]
      rw [hsEq]
      by_cases hnew : endsNew v = true
      · rw [if_pos hnew]
        exact Rel.block hW hW hnew (ih r (by omega))
      · rw [if_neg hnew]
        exact Rel.block hW (isWhole_normBlock hW) (endsNew_normBlock v) (ih r (by omega))
    | none =>
      cases s with
      | nil => exact Rel.nil
      | cons c t =>
        rw [subGID_skip htg]
        exact Rel.step htg (ih t (by simpa using hs))

theorem subGID_rel (s : List Char) : Rel s (patch_group_id s) :=
  subGID_rel_aux s.length s le_rfl

/-- The central lemma: a match of the group-id pattern at the head of
`p ++ output` implies a match at the head of `p ++ input`.  In other words,
rewriting never creates a match at a position where the scanner had found
none. -/
theorem relMatch {a b : List Char} (hrel : Rel a b) :
    ∀ p wg vg rg, tryGID (p ++ b) = some (wg, vg, rg) →
      ∃ w2 v2 r2, tryGID (p ++ a) = some (w2, v2, r2) := by
  induction hrel with
  | nil =>
    intro p wg vg rg h
    exact ⟨wg, vg, rg, h⟩
  | step hnone hr ih =>
    rename_i c a2 b2
    intro p wg vg rg h
    have h2 : tryGID ((p ++ [c]) ++ b2) = some (wg, vg, rg) := by
      simpa [List.append_assoc] using h
    obtain ⟨w2, v2, r2, h3⟩ := ih (p ++ [c]) wg vg rg h2
    exact ⟨w2, v2, r2, by simpa [List.append_assoc] using h3⟩
  | block hwt hB hnewB hr ih =>
    rename_i wt vt B vB a2 b2
    intro p wg vg rg h
    obtain ⟨hWg, hEq⟩ := tryGID_sound h
    by_cases hlen : wg.length ≤ p.length
    · -- the match lies inside `p`, which the two sides share
      obtain ⟨t, hp, hrg⟩ := splitAppend hEq hlen
      subst hp
      refine ⟨wg, vg, t ++ (wt ++ a2), ?_⟩
      have := tryGID_complete hWg (t ++ (wt ++ a2))
      simpa [List.append_assoc] using this
    · push_neg at hlen
      obtain ⟨q, hwgq, hq⟩ := splitAppend hEq.symm (le_of_lt hlen)
      -- `hwgq : wg = p ++ q`, `hq : B ++ b2 = q ++ rg`
      cases q with
      | nil =>
        exfalso
        rw [hwgq] at hlen
        simp at hlen
      | cons qc q2 =>
        -- the match extends into the block `B`, whose head is a quote
        obtain ⟨cB, u1, u2, hmkB, _hcB, _hu1, _hu2, _hvB, _hvBq⟩ := hB
        rw [hmkB] at hq
        have hq2 : '"' :: (restProp ++ (cB :: (litID ++ (u1 ++ '=' :: (u2 ++ '"' :: (vB ++ ['"'])))) ++ b2))
            = qc :: (q2 ++ rg) := by
          simpa [mkWhole, litProp, List.append_assoc] using hq
        simp only [List.cons.injEq] at hq2
        obtain ⟨hqc, hQB⟩ := hq2
        subst hqc
        -- decompose the match `wg` against the prefix `p ++ quote ++ q2`
        obtain ⟨cg, w1, w2, hmkg, hcg, hw1, hw2, hvg, hvgq⟩ := hWg
        rw [hmkg] at hwgq
        cases p with
        | nil =>
          -- a match at offset zero of the input side exists outright
          refine ⟨wt, vt, a2, ?_⟩
          simpa using tryGID_complete hwt a2
        | cons pc p2 =>
          have hwg2 : '"' :: (restProp ++ (cg :: (litID ++ (w1 ++ '=' :: (w2 ++ '"' :: (vg ++ ['"']))))))
              = pc :: (p2 ++ '"' :: q2) := by
            simpa [mkWhole, litProp, List.append_assoc] using hwgq
          simp only [List.cons.injEq] at hwg2
          obtain ⟨hpc, hP2⟩ := hwg2
          subst hpc
          obtain ⟨p3, hp2, hP3⟩ := noQuoteCross (by decide) hP2.symm
          subst hp2
          cases p3 with
          | nil =>
            -- the wildcard position: the following text would have to be
            -- `id"`, but the block continues with `roperty...`
            exfalso
            simp only [List.nil_append, List.cons.injEq] at hP3
            obtain ⟨_, hq2eq⟩ := hP3
            rw [hq2eq] at hQB
            simp [restProp, litID] at hQB
          | cons c3 p4 =>
            simp only [List.cons_append, List.cons.injEq] at hP3
            obtain ⟨hc3, hP4⟩ := hP3
            have hc3s : cg = c3 := hc3.symm
            subst hc3s
            have hP4b : p4 ++ '"' :: q2
                = 'i' :: ('d' :: ('"' :: (w1 ++ '=' :: (w2 ++ '"' :: (vg ++ ['"']))))) := by
              simpa [litID] using hP4
            cases p4 with
            | nil =>
              exfalso
              simp at hP4b
            | cons c4 p5 =>
              simp only [List.cons_append, List.cons.injEq] at hP4b
              obtain ⟨hc4, hP5⟩ := hP4b
              subst hc4
              cases p5 with
              | nil =>
                exfalso
                simp at hP5
              | cons c5 p6 =>
                simp only [List.cons_append, List.cons.injEq] at hP5
                obtain ⟨hc5, hP6⟩ := hP5
                subst hc5
                cases p6 with
                | nil =>
                  -- the value-opening-quote position of a spaceless match:
                  -- the following text would have to be whitespace or `=`,
                  -- but the block continues with `roperty...`
                  exfalso
                  simp only [List.nil_append, List.cons.injEq] at hP6
                  obtain ⟨_, hq2eq⟩ := hP6
                  rw [hq2eq] at hQB
                  cases hw1e : w1 with
                  | nil =>
                    rw [hw1e] at hQB
                    simp [restProp] at hQB
                  | cons s1 w1t =>
                    rw [hw1e] at hQB
                    have hs1 : isSpc s1 = true := hw1 s1 (by simp [hw1e])
                    have : restProp ++ ((cB :: (litID ++ (u1 ++ '=' :: (u2 ++ '"' :: (vB ++ ['"'])))) ++ b2))
                        = s1 :: (w1t ++ '=' :: (w2 ++ '"' :: (vg ++ ['"'])) ++ rg) := by
                      simpa [List.append_assoc] using hQB
                    have hhd : 'p' = s1 := by
                      have := congrArg List.headI this
                      simpa [restProp] using this
                    rw [← hhd] at hs1
                    simp [isSpc] at hs1
                | cons c6 p7 =>
                  simp only [List.cons_append, List.cons.injEq] at hP6
                  obtain ⟨hc6, hP7⟩ := hP6
                  subst hc6
                  obtain ⟨p8, hp7, hP8⟩ :=
                    noQuoteCross (fun x hx => spc_ne_quote (hw1 x hx)) hP7
                  subst hp7
                  cases p8 with
                  | nil =>
                    exfalso
                    simp at hP8
                  | cons c7 p9 =>
                    simp only [List.cons_append, List.cons.injEq] at hP8
                    obtain ⟨hc7, hP9⟩ := hP8
                    subst hc7
                    obtain ⟨p10, hp9, hP10⟩ :=
                      noQuoteCross (fun x hx => spc_ne_quote (hw2 x hx)) hP9
                    subst hp9
                    cases p10 with
                    | nil =>
                      -- value-opening-quote case: build a match on the input
                      -- side whose value starts at the head of `wt`
                      simp only [List.nil_append, List.cons.injEq] at hP10
                      obtain ⟨_, hq2eq⟩ := hP10
                      obtain ⟨ct, t1, t2, hmkt, hct, ht1, ht2, hvt, hvtq⟩ := hwt
                      by_cases hctq : ct = '"'
                      · refine ⟨mkWhole cg w1 w2 restProp, restProp,
                          litID ++ (t1 ++ '=' :: (t2 ++ '"' :: (vt ++ ['"']))) ++ a2, ?_⟩
                        have hcomp := tryGID_complete
                          (show IsWhole (mkWhole cg w1 w2 restProp) restProp from
                            ⟨cg, w1, w2, rfl, hcg, hw1, hw2, by decide, by decide⟩)
                          (litID ++ (t1 ++ '=' :: (t2 ++ '"' :: (vt ++ ['"']))) ++ a2)
                        convert hcomp using 2
                        rw [hmkt, hctq]
                        simp [mkWhole, litProp, litID, List.append_assoc]
                      · refine ⟨mkWhole cg w1 w2 (restProp ++ ct :: ('i' :: ('d' :: []))),
                          restProp ++ ct :: ('i' :: ('d' :: [])),
                          (t1 ++ '=' :: (t2 ++ '"' :: (vt ++ ['"']))) ++ a2, ?_⟩
                        have hIW : IsWhole
                            (mkWhole cg w1 w2 (restProp ++ ct :: ('i' :: ('d' :: []))))
                            (restProp ++ ct :: ('i' :: ('d' :: []))) := by
                          refine ⟨cg, w1, w2, rfl, hcg, hw1, hw2, by simp [restProp], ?_⟩
                          intro x hx
                          rcases List.mem_append.mp hx with h1 | h1
                          · exact (show ∀ y ∈ restProp, y ≠ '"' from by decide) x h1
                          · simp at h1
                            rcases h1 with rfl | rfl | rfl
                            · exact hctq
                            · decide
                            · decide
                        have hcomp := tryGID_complete hIW
                          ((t1 ++ '=' :: (t2 ++ '"' :: (vt ++ ['"']))) ++ a2)
                        convert hcomp using 2
                        rw [hmkt]
                        simp [mkWhole, litProp, litID, List.append_assoc]
                    | cons c8 p11 =>
                      simp only [List.cons_append, List.cons.injEq] at hP10
                      obtain ⟨hc8, hP11⟩ := hP10
                      subst hc8
                      obtain ⟨p12, hp11, hP12⟩ := noQuoteCross hvgq hP11
                      subst hp11
                      cases p12 with
                      | nil =>
                        -- closing-quote case: the head of `wt` closes the value
                        simp only [List.nil_append, List.cons.injEq] at hP12
                        obtain ⟨_, hq2eq⟩ := hP12
                        obtain ⟨ct, t1, t2, hmkt, hct, ht1, ht2, hvt, hvtq⟩ := hwt
                        refine ⟨mkWhole cg w1 w2 vg, vg,
                          (restProp ++ (ct :: (litID ++ (t1 ++ '=' :: (t2 ++ '"' :: (vt ++ ['"'])))))) ++ a2, ?_⟩
                        have hcomp := tryGID_complete
                          (show IsWhole (mkWhole cg w1 w2 vg) vg from
                            ⟨cg, w1, w2, rfl, hcg, hw1, hw2, hvg, hvgq⟩)
                          ((restProp ++ (ct :: (litID ++ (t1 ++ '=' :: (t2 ++ '"' :: (vt ++ ['"'])))))) ++ a2)
                        convert hcomp using 2
                        rw [hmkt]
                        simp [mkWhole, litProp, litID, List.append_assoc]
                      | cons c9 p13 =>
                        exfalso
                        simp at hP12

/-- Outputs of `patch_group_id` are fixed points. -/
theorem relFix {a b : List Char} (hrel : Rel a b) : patch_group_id b = b := by
  induction hrel with
  | nil => rfl
  | block hwt hB hnewB hr ih =>
    rename_i wt vt B vB a2 b2
    rw [subGID_match (tryGID_complete hB b2), if_pos hnewB, ih]
  | step hnone hr ih =>
    rename_i c a2 b2
    have hnone2 : tryGID (c :: b2) = none := by
      cases htg : tryGID (c :: b2) with
      | none => rfl
      | some pr =>
        obtain ⟨wg, vg, rg⟩ := pr
        obtain ⟨w2, v2, r2, h3⟩ := relMatch hr [c] wg vg rg (by simpa using htg)
        rw [show ([c] ++ a2) = c :: a2 from by simp] at h3
        rw [h3] at hnone
        exact absurd hnone (by simp)
    rw [subGID_skip hnone2, ih]

/-- C4: `patch_group_id` is idempotent — applied to its own output it
returns that output unchanged; in particular a value already carrying the
`_new` suffix is kept verbatim, so no `_new_new` value is ever produced. -/
theorem patch_group_id_idem (create_sql : List Char) :
    patch_group_id (patch_group_id create_sql) = patch_group_id create_sql :=
  relFix (subGID_rel create_sql)

/-! ## Job records, `clean_dbname` and `get_dbtable_to_names`

Source lines 47-54 and 89-106.  A job record carries the four fields the
reader extracts; a missing column is `none`, and Python truthiness makes the
empty string falsy, so "missing or empty" fields are both modelled by the
guard patterns below. -/

structure JobRec where
  name : Option (List Char)
  dbName : Option (List Char)
  tableName : Option (List Char)
  progress : Option (List Char)

/-- The legacy prefix `default_cluster:` . -/
def dcPre : List Char := "default_cluster:".toList

/-- `clean_dbname(dbname)`, source lines 47-54: strip one leading
`default_cluster:`; `None` and falsy values pass through unchanged.
(`split(":", 1)[1]` equals the text after the prefix, because the prefix
ends at its only colon.) -/
def clean_dbname : Option (List Char) → Option (List Char)
  | none => none
  | some s =>
    if s = [] then some s
    else some ((stripL dcPre s).getD s)

/-- Insert a name into the set kept for a key, as
`dbtable_to_names[key].add(name)` over a freshly created entry does.  The
set is modelled by its insertion-ordered list of distinct elements. -/
def addName (acc : List (List Char × List (List Char))) (key nm : List Char) :
    List (List Char × List (List Char)) :=
  match acc with
  | [] => [(key, [nm])]
  | (k, ns) :: t =>
    if k = key then (k, if nm ∈ ns then ns else ns ++ [nm]) :: t
    else (k, ns) :: addName t key nm

/-- Python truthiness of an optional string field: present and nonempty. -/
def fieldNE : Option (List Char) → Bool
  | some (_ :: _) => true
  | _ => false

/-- One loop iteration of `get_dbtable_to_names`: de-prefix the schema and,
when schema, table and name are all truthy
(`if dbname and tablename and name:`), add the name under
`"schema.table"`. -/
def gdtStep (acc : List (List Char × List (List Char))) (it : JobRec) :
    List (List Char × List (List Char)) :=
  if fieldNE (clean_dbname it.dbName) && fieldNE it.tableName && fieldNE it.name then
    addName acc ((clean_dbname it.dbName).getD [] ++ '.' :: it.tableName.getD [])
      (it.name.getD [])
  else acc

/-- `get_dbtable_to_names(routine_load_infos)`, source lines 89-106. -/
def get_dbtable_to_names (infos : List (List Char × List JobRec)) :
    List (List Char × List (List Char)) :=
  infos.foldl (fun acc p => p.2.foldl gdtStep acc) []

/-! ## `generate_pause_resume_sql`

Source lines 207-228. -/

def pauseStmt (db nm : List Char) : List Char :=
  "PAUSE ROUTINE LOAD FOR ".toList ++ db ++ '.' :: nm ++ [';']

def resumeStmt (db nm : List Char) : List Char :=
  "RESUME ROUTINE LOAD FOR ".toList ++ db ++ '.' :: nm ++ [';']

/-- `dbtable.split('.', 1)` destructured into two names; a key without a
dot makes the unpacking raise (modelled as `none`). -/
def splitDot1 (s : List Char) : Option (List Char × List Char) :=
  match spanP (fun c => c != '.') s with
  | (a, b) =>
    match b with
    | c :: t => if c = '.' then some (a, t) else none
    | [] => none

/-- Lexicographic order on code-point sequences: the order CPython uses to
compare strings. -/
def lexLe (a b : List Char) : Prop := a ≤ b

instance : DecidableRel lexLe := fun a b => inferInstanceAs (Decidable (a ≤ b))

instance : IsTotal (List Char) lexLe := ⟨fun a b => le_total a b⟩

instance : IsTrans (List Char) lexLe := ⟨fun _ _ _ h1 h2 => le_trans h1 h2⟩

/-- `sorted(list(names))`: CPython sorts strings lexicographically by code
point; `sorted` is stable, and for a linear order every stable sort agrees
with `List.insertionSort`. -/
def sortNames (names : List (List Char)) : List (List Char) :=
  List.insertionSort lexLe names

/-- Whether an entry is skipped by the optional filters:
`if filter_db and db != filter_db: continue` and likewise for the table. -/
def filtSkip (fdb ftab : Option (List Char)) (db tb : List Char) : Bool :=
  (match fdb with
   | none => false
   | some f => decide (db ≠ f))
  || (match ftab with
      | none => false
      | some f => decide (tb ≠ f))

/-- `generate_pause_resume_sql(dbtable_to_names, filter_db, filter_table)`,
source lines 207-228; `none` models the `ValueError` escaping when a key
has no dot. -/
def generate_pause_resume_sql (m : List (List Char × List (List Char)))
    (fdb ftab : Option (List Char)) :
    Option (List (List Char × List (List Char) × List (List Char) × List (List Char))) :=
  match m with
  | [] => some []
  | (dbtable, names) :: rest =>
    match splitDot1 dbtable with
    | none => none
    | some (db, tb) =>
      if filtSkip fdb ftab db tb then generate_pause_resume_sql rest fdb ftab
      else
        (generate_pause_resume_sql rest fdb ftab).map
          (fun rows =>
            (dbtable, sortNames names, (sortNames names).map (pauseStmt db),
              (sortNames names).map (resumeStmt db)) :: rows)

/-- Number of occurrences of `x` in a list. -/
def countOcc {α : Type} [DecidableEq α] (x : α) : List α → Nat
  | [] => 0
  | y :: t => (if y = x then 1 else 0) + countOcc x t

theorem countOcc_map_inj {α β : Type} [DecidableEq α] [DecidableEq β] {f : α → β}
    (hf : Function.Injective f) (x : α) (l : List α) :
    countOcc (f x) (l.map f) = countOcc x l := by
  induction l with
  | nil => rfl
  | cons y t ih =>
    simp only [List.map_cons, countOcc, ih]
    by_cases h : y = x
    · rw [if_pos h, if_pos (by rw [h])]
    · rw [if_neg h, if_neg (fun he => h (hf he))]

theorem countOcc_perm {α : Type} [DecidableEq α] (x : α) {l1 l2 : List α}
    (hp : l1.Perm l2) : countOcc x l1 = countOcc x l2 := by
  induction hp with
  | nil => rfl
  | cons y _ ih => simp only [countOcc, ih]
  | swap y z l => simp only [countOcc]; omega
  | trans _ _ ih1 ih2 => rw [ih1, ih2]

theorem countOcc_eq_zero {α : Type} [DecidableEq α] {x : α} {l : List α}
    (h : x ∉ l) : countOcc x l = 0 := by
  induction l with
  | nil => rfl
  | cons z u ih =>
    simp only [countOcc]
    rw [if_neg (fun he => h (by rw [← he]; exact List.mem_cons_self z u)),
      ih (fun hu => h (List.mem_cons_of_mem z hu))]

theorem countOcc_eq_one {α : Type} [DecidableEq α] {x : α} {l : List α}
    (hnd : l.Nodup) (hm : x ∈ l) : countOcc x l = 1 := by
  induction l with
  | nil => simp at hm
  | cons y t ih =>
    rcases List.mem_cons.mp hm with rfl | hm2
    · have hnx : x ∉ t := (List.nodup_cons.mp hnd).1
      simp [countOcc, countOcc_eq_zero hnx]
    · have hyx : y ≠ x := fun he => (List.nodup_cons.mp hnd).1 (by rw [he]; exact hm2)
      simp only [countOcc, if_neg hyx, ih (List.nodup_cons.mp hnd).2 hm2]

theorem pauseStmt_inj (db : List Char) : Function.Injective (pauseStmt db) := by
  intro a b h
  unfold pauseStmt at h
  have h1 := List.append_cancel_right h
  have h2 := List.append_cancel_left h1
  simpa using h2

theorem resumeStmt_inj (db : List Char) : Function.Injective (resumeStmt db) := by
  intro a b h
  unfold resumeStmt at h
  have h1 := List.append_cancel_right h
  have h2 := List.append_cancel_left h1
  simpa using h2

/-- C6: for every table-to-names mapping and every table key passing the
optional schema/table filters, the generator emits a row holding the job
names sorted lexicographically, and for each name in that order exactly one
`PAUSE ROUTINE LOAD FOR <schema>.<name>;` and exactly one
`RESUME ROUTINE LOAD FOR <schema>.<name>;` statement, pause and resume
lists in matching index order (both are images of the same sorted list). -/
theorem gen_c6 (m : List (List Char × List (List Char))) (fdb ftab : Option (List Char))
    (rows : List (List Char × List (List Char) × List (List Char) × List (List Char)))
    (dbtable : List Char) (names : List (List Char)) (db tb : List Char)
    (hgen : generate_pause_resume_sql m fdb ftab = some rows)
    (hmem : (dbtable, names) ∈ m)
    (hsplit : splitDot1 dbtable = some (db, tb))
    (hfd : fdb = none ∨ fdb = some db)
    (hft : ftab = none ∨ ftab = some tb) :
    ∃ sorted pauses resumes,
      (dbtable, sorted, pauses, resumes) ∈ rows ∧
      sorted.Perm names ∧ List.Sorted lexLe sorted ∧
      pauses = sorted.map (pauseStmt db) ∧ resumes = sorted.map (resumeStmt db) ∧
      (names.Nodup → ∀ nm ∈ names,
        countOcc (pauseStmt db nm) pauses = 1 ∧ countOcc (resumeStmt db nm) resumes = 1) := by
  have hnoskip : filtSkip fdb ftab db tb = false := by
    unfold filtSkip
    rcases hfd with rfl | rfl <;> rcases hft with rfl | rfl <;> simp
  induction m generalizing rows with
  | nil => simp at hmem
  | cons entry rest ih =>
    obtain ⟨kt, ns2⟩ := entry
    unfold generate_pause_resume_sql at hgen
    cases hs : splitDot1 kt with
    | none => rw [hs] at hgen; exact absurd hgen (by simp)
    | some p =>
      obtain ⟨db2, tb2⟩ := p
      rw [hs] at hgen
      simp only at hgen
      rcases List.mem_cons.mp hmem with hhead | htail
      · -- our entry is the head
        obtain ⟨h1, h2⟩ : kt = dbtable ∧ ns2 = names := by
          have := hhead.symm
          simp only [Prod.mk.injEq] at this
          exact this
        have h1s : dbtable = kt := h1.symm
        have h2s : names = ns2 := h2.symm
        subst h1s; subst h2s
        rw [hsplit] at hs
        obtain ⟨h3, h4⟩ : db = db2 ∧ tb = tb2 := by
          simpa using hs
        subst h3; subst h4
        rw [if_neg (by simp [hnoskip])] at hgen
        cases hrest : generate_pause_resume_sql rest fdb ftab with
        | none => rw [hrest] at hgen; exact absurd hgen (by simp)
        | some rows2 =>
          rw [hrest] at hgen
          simp only [Option.map_some', Option.some.injEq] at hgen
          subst hgen
          refine ⟨sortNames names, (sortNames names).map (pauseStmt db),
            (sortNames names).map (resumeStmt db), by simp, ?_, ?_, rfl, rfl, ?_⟩
          · exact List.perm_insertionSort lexLe names
          · exact List.sorted_insertionSort lexLe names
          · intro hnd nm hnm
            have hperm : (sortNames names).Perm names := List.perm_insertionSort lexLe names
            have hcount : countOcc nm (sortNames names) = 1 := by
              rw [countOcc_perm nm hperm]
              exact countOcc_eq_one hnd hnm
            constructor
            · rw [countOcc_map_inj (pauseStmt_inj db), hcount]
            · rw [countOcc_map_inj (resumeStmt_inj db), hcount]
      · -- our entry is further down: recurse
        by_cases hskip : filtSkip fdb ftab db2 tb2 = true
        · rw [if_pos hskip] at hgen
          exact ih rows hgen htail
        · rw [if_neg hskip] at hgen
          cases hrest : generate_pause_resume_sql rest fdb ftab with
          | none => rw [hrest] at hgen; exact absurd hgen (by simp)
          | some rows2 =>
            rw [hrest] at hgen
            simp only [Option.map_some', Option.some.injEq] at hgen
            subst hgen
            obtain ⟨sorted, pauses, resumes, hmem2, hrest2⟩ := ih rows2 hrest htail
            exact ⟨sorted, pauses, resumes, List.mem_cons_of_mem _ hmem2, hrest2⟩

theorem gen_c6_witness :
    ∃ rows, generate_pause_resume_sql [("db1.t1".toList, ["b".toList, "a".toList])]
        none none = some rows ∧
      ∃ sorted pauses resumes,
        ("db1.t1".toList, sorted, pauses, resumes) ∈ rows ∧
        sorted.Perm ["b".toList, "a".toList] ∧ List.Sorted lexLe sorted ∧
        pauses = sorted.map (pauseStmt "db1".toList) ∧
        resumes = sorted.map (resumeStmt "db1".toList) ∧
        (["b".toList, "a".toList].Nodup → ∀ nm ∈ ["b".toList, "a".toList],
          countOcc (pauseStmt "db1".toList nm) pauses = 1 ∧
          countOcc (resumeStmt "db1".toList nm) resumes = 1) := by
  refine ⟨_, rfl, ?_⟩
  exact gen_c6 [("db1.t1".toList, ["b".toList, "a".toList])] none none _
    "db1.t1".toList ["b".toList, "a".toList] "db1".toList "t1".toList
    rfl (by simp) rfl (Or.inl rfl) (Or.inl rfl)

/-! ### Characterisation of the aggregation (claims C7 and C8) -/

/-- Membership of a name in the set kept for a key. -/
def memIn (acc : List (List Char × List (List Char))) (k x : List Char) : Prop :=
  ∃ ns, (k, ns) ∈ acc ∧ x ∈ ns

/-- What a single record contributes: all three fields present and
nonempty, the key being the de-prefixed schema joined to the table. -/
def contrib (it : JobRec) (key nm : List Char) : Prop :=
  ∃ d t, clean_dbname it.dbName = some d ∧ d ≠ [] ∧ it.tableName = some t ∧ t ≠ [] ∧
    it.name = some nm ∧ nm ≠ [] ∧ key = d ++ '.' :: t

theorem memIn_cons (a : List Char) (ns : List (List Char))
    (t : List (List Char × List (List Char))) (k x : List Char) :
    memIn ((a, ns) :: t) k x ↔ (k = a ∧ x ∈ ns) ∨ memIn t k x := by
  constructor
  · rintro ⟨ns0, hmem, hx⟩
    rcases List.mem_cons.mp hmem with heq | hmem2
    · simp only [Prod.mk.injEq] at heq
      exact Or.inl ⟨heq.1, heq.2 ▸ hx⟩
    · exact Or.inr ⟨ns0, hmem2, hx⟩
  · rintro (⟨rfl, hx⟩ | ⟨ns0, hmem2, hx⟩)
    · exact ⟨ns, List.mem_cons_self _ _, hx⟩
    · exact ⟨ns0, List.mem_cons_of_mem _ hmem2, hx⟩

theorem memIn_addName (acc : List (List Char × List (List Char))) (key nm k x : List Char) :
    memIn (addName acc key nm) k x ↔ memIn acc k x ∨ (k = key ∧ x = nm) := by
  induction acc with
  | nil =>
    unfold addName
    rw [memIn_cons]
    simp [memIn]
  | cons hd t ih =>
    obtain ⟨k2, ns2⟩ := hd
    by_cases hk : k2 = key
    · subst hk
      unfold addName
      rw [if_pos rfl, memIn_cons, memIn_cons]
      have hmem : x ∈ (if nm ∈ ns2 then ns2 else ns2 ++ [nm]) ↔ x ∈ ns2 ∨ x = nm := by
        by_cases hin : nm ∈ ns2
        · rw [if_pos hin]
          constructor
          · exact fun h => Or.inl h
          · rintro (h | rfl)
            · exact h
            · exact hin
        · rw [if_neg hin]
          simp
      rw [hmem]
      tauto
    · unfold addName
      rw [if_neg hk, memIn_cons, memIn_cons, ih]
      tauto

theorem memIn_gdtStep (acc : List (List Char × List (List Char))) (it : JobRec)
    (k x : List Char) :
    memIn (gdtStep acc it) k x ↔ memIn acc k x ∨ contrib it k x := by
  unfold gdtStep
  cases hd : clean_dbname it.dbName with
  | none =>
    simp [fieldNE, contrib, hd]
  | some dl =>
    cases dl with
    | nil =>
      simp [fieldNE, contrib, hd]
    | cons d0 dr =>
      cases ht : it.tableName with
      | none => simp [fieldNE, contrib, hd, ht]
      | some tl =>
        cases tl with
        | nil => simp [fieldNE, contrib, hd, ht]
        | cons t0 tr =>
          cases hn : it.name with
          | none => simp [fieldNE, contrib, hd, ht, hn]
          | some nl =>
            cases nl with
            | nil =>
              simp only [fieldNE, Bool.and_false, Bool.false_eq_true, if_false]
              simp [contrib, hd, ht, hn]
              intro h1 h2
              exact absurd h1 h2
            | cons n0 nr =>
              simp only [fieldNE, Option.getD_some, Bool.and_self, if_pos]
              rw [memIn_addName]
              have hc : contrib it k x ↔ (k = (d0 :: dr) ++ '.' :: (t0 :: tr) ∧ x = n0 :: nr) := by
                unfold contrib
                rw [hd, ht, hn]
                constructor
                · rintro ⟨d, t, hd2, _, ht2, _, hn2, _, hkey⟩
                  simp only [Option.some.injEq] at hd2 ht2 hn2
                  subst hd2; subst ht2
                  exact ⟨hkey, hn2.symm⟩
                · rintro ⟨rfl, rfl⟩
                  exact ⟨d0 :: dr, t0 :: tr, rfl, by simp, rfl, by simp, rfl, by simp, rfl⟩
              rw [hc]

theorem memIn_foldl_inner (items : List JobRec) :
    ∀ acc k x, memIn (items.foldl gdtStep acc) k x
      ↔ memIn acc k x ∨ ∃ it ∈ items, contrib it k x := by
  induction items with
  | nil => intro acc k x; simp
  | cons it rest ih =>
    intro acc k x
    simp only [List.foldl_cons]
    rw [ih, memIn_gdtStep]
    constructor
    · rintro ((h | h) | ⟨it2, hm, h⟩)
      · exact Or.inl h
      · exact Or.inr ⟨it, List.mem_cons_self _ _, h⟩
      · exact Or.inr ⟨it2, List.mem_cons_of_mem _ hm, h⟩
    · rintro (h | ⟨it2, hm, h⟩)
      · exact Or.inl (Or.inl h)
      · rcases List.mem_cons.mp hm with rfl | hm2
        · exact Or.inl (Or.inr h)
        · exact Or.inr ⟨it2, hm2, h⟩

theorem memIn_gdt (infos : List (List Char × List JobRec)) (k x : List Char) :
    memIn (get_dbtable_to_names infos) k x
      ↔ ∃ p ∈ infos, ∃ it ∈ p.2, contrib it k x := by
  unfold get_dbtable_to_names
  have aux : ∀ (l : List (List Char × List JobRec)) acc,
      memIn (l.foldl (fun acc p => p.2.foldl gdtStep acc) acc) k x
        ↔ memIn acc k x ∨ ∃ p ∈ l, ∃ it ∈ p.2, contrib it k x := by
    intro l
    induction l with
    | nil => intro acc; simp
    | cons p rest ih =>
      intro acc
      simp only [List.foldl_cons]
      rw [ih, memIn_foldl_inner]
      constructor
      · rintro ((h | ⟨it, hm, h⟩) | ⟨p2, hp, it, hm, h⟩)
        · exact Or.inl h
        · exact Or.inr ⟨p, List.mem_cons_self _ _, it, hm, h⟩
        · exact Or.inr ⟨p2, List.mem_cons_of_mem _ hp, it, hm, h⟩
      · rintro (h | ⟨p2, hp, it, hm, h⟩)
        · exact Or.inl (Or.inl h)
        · rcases List.mem_cons.mp hp with rfl | hp2
          · exact Or.inl (Or.inr ⟨it, hm, h⟩)
          · exact Or.inr ⟨p2, hp2, it, hm, h⟩
  rw [aux infos []]
  simp [memIn]

/-- C7: a name appears under a key in the aggregation exactly when some
record (in some schema's list) carries that name with a nonempty
de-prefixed schema and nonempty table forming the key; records with a
missing or empty schema, table or name contribute nothing.  The second
conjunct is the claim's example: jobs `j1`, `j2` on `db1.t1` yield exactly
the map from `db1.t1` to the set of the two names. -/
theorem gdt_c7 (infos : List (List Char × List JobRec)) (key nm : List Char) :
    (memIn (get_dbtable_to_names infos) key nm
      ↔ ∃ p ∈ infos, ∃ it ∈ p.2, contrib it key nm)
    ∧ get_dbtable_to_names
        [("db1".toList,
          [⟨some "j1".toList, some "db1".toList, some "t1".toList, some "p".toList⟩,
           ⟨some "j2".toList, some "db1".toList, some "t1".toList, some "p".toList⟩])]
      = [("db1.t1".toList, ["j1".toList, "j2".toList])] := by
  refine ⟨memIn_gdt infos key nm, by decide⟩

/-! ### Claim C8: schema names are de-prefixed everywhere -/

theorem vals_addName {acc : List (List Char × List (List Char))} {key nm : List Char}
    (h : ∀ k ns, (k, ns) ∈ acc → ns ≠ []) :
    ∀ k ns, (k, ns) ∈ addName acc key nm → ns ≠ [] := by
  induction acc with
  | nil =>
    intro k ns hm
    simp [addName] at hm
    simp [hm.2]
  | cons hd t ih =>
    obtain ⟨k2, ns2⟩ := hd
    intro k ns hm
    unfold addName at hm
    by_cases hk : k2 = key
    · rw [if_pos hk] at hm
      rcases List.mem_cons.mp hm with heq | hm2
      · simp only [Prod.mk.injEq] at heq
        rw [heq.2]
        by_cases hin : nm ∈ ns2
        · rw [if_pos hin]
          intro he
          rw [he] at hin
          simp at hin
        · rw [if_neg hin]
          simp
      · exact h k ns (List.mem_cons_of_mem _ hm2)
    · rw [if_neg hk] at hm
      rcases List.mem_cons.mp hm with heq | hm2
      · simp only [Prod.mk.injEq] at heq
        exact h k ns (by rw [heq.1, heq.2]; exact List.mem_cons_self _ _)
      · exact ih (fun k3 ns3 hm3 => h k3 ns3 (List.mem_cons_of_mem _ hm3)) k ns hm2

theorem vals_gdtStep {acc : List (List Char × List (List Char))} {it : JobRec}
    (h : ∀ k ns, (k, ns) ∈ acc → ns ≠ []) :
    ∀ k ns, (k, ns) ∈ gdtStep acc it → ns ≠ [] := by
  unfold gdtStep
  by_cases hc : (fieldNE (clean_dbname it.dbName) && fieldNE it.tableName
      && fieldNE it.name) = true
  · rw [if_pos hc]
    exact vals_addName h
  · rw [if_neg hc]
    exact h

theorem vals_gdt (infos : List (List Char × List JobRec)) :
    ∀ k ns, (k, ns) ∈ get_dbtable_to_names infos → ns ≠ [] := by
  unfold get_dbtable_to_names
  have aux1 : ∀ (items : List JobRec) acc, (∀ k ns, (k, ns) ∈ acc → ns ≠ []) →
      ∀ k ns, (k, ns) ∈ items.foldl gdtStep acc → ns ≠ [] := by
    intro items
    induction items with
    | nil => intro acc h; simpa using h
    | cons it rest ih =>
      intro acc h
      simp only [List.foldl_cons]
      exact ih _ (vals_gdtStep h)
  have aux2 : ∀ (l : List (List Char × List JobRec)) acc, (∀ k ns, (k, ns) ∈ acc → ns ≠ []) →
      ∀ k ns, (k, ns) ∈ l.foldl (fun acc p => p.2.foldl gdtStep acc) acc → ns ≠ [] := by
    intro l
    induction l with
    | nil => intro acc h; simpa using h
    | cons p rest ih =>
      intro acc h
      simp only [List.foldl_cons]
      exact ih _ (aux1 p.2 acc h)
  exact aux2 infos [] (by simp)

theorem clean_dbname_some (s : List Char) :
    clean_dbname (some s) = if s = [] then some s else some ((stripL dcPre s).getD s) := rfl

theorem clean_no_pre {s d : List Char} (hc : clean_dbname (some s) = some d)
    (hone : ∀ r, s = dcPre ++ r → ∀ r2, r ≠ dcPre ++ r2) : ∀ r, d ≠ dcPre ++ r := by
  rw [clean_dbname_some] at hc
  by_cases hs : s = []
  · rw [if_pos hs] at hc
    simp only [Option.some.injEq] at hc
    intro r he
    rw [← hc, hs] at he
    have := congrArg List.length he
    simp [dcPre] at this
  · rw [if_neg hs] at hc
    simp only [Option.some.injEq] at hc
    cases hst : stripL dcPre s with
    | some r0 =>
      rw [hst, Option.getD_some] at hc
      subst hc
      exact hone r0 (stripL_eq _ _ _ hst)
    | none =>
      rw [hst, Option.getD_none] at hc
      subst hc
      intro r he
      rw [he, stripL_app] at hst
      exact absurd hst (by simp)

theorem key_no_pre {d : List Char} (t : List Char) (hd : ∀ r, d ≠ dcPre ++ r) :
    ∀ r, d ++ '.' :: t ≠ dcPre ++ r := by
  intro r h
  rcases List.append_eq_append_iff.mp h with ⟨u, hu1, hu2⟩ | ⟨u, hu1, hu2⟩
  · cases u with
    | nil => exact hd [] (by simpa using hu1.symm)
    | cons x u2 =>
      have hx : x = '.' := by
        have := congrArg List.headI hu2
        simpa using this.symm
      subst hx
      have hdot : '.' ∈ dcPre := by
        rw [hu1]
        exact List.mem_append_right d (List.mem_cons_self _ _)
      exact absurd hdot (by decide)
  · exact hd u hu1

theorem splitDot1_sound {s a t : List Char} (h : splitDot1 s = some (a, t)) :
    s = a ++ '.' :: t := by
  unfold splitDot1 at h
  cases hsp : spanP (fun c => c != '.') s with
  | mk a0 b =>
    rw [hsp] at h
    cases b with
    | nil => exact absurd h (by simp)
    | cons c bt =>
      by_cases hc : c = '.'
      · subst hc
        simp only [if_pos rfl, Option.some.injEq, Prod.mk.injEq] at h
        obtain ⟨rfl, rfl⟩ := h
        exact (spanP_eq _ _ _ _ hsp).1
      · simp [hc] at h

/-- Every row of the generator comes from an entry of the mapping, with the
statement lists built over the key's first-dot split. -/
theorem gen_rows_shape (m : List (List Char × List (List Char)))
    (fdb ftab : Option (List Char))
    (rows : List (List Char × List (List Char) × List (List Char) × List (List Char)))
    (hgen : generate_pause_resume_sql m fdb ftab = some rows) :
    ∀ row ∈ rows, ∃ dbtable names db tb,
      (dbtable, names) ∈ m ∧ splitDot1 dbtable = some (db, tb) ∧
      row = (dbtable, sortNames names, (sortNames names).map (pauseStmt db),
        (sortNames names).map (resumeStmt db)) := by
  induction m generalizing rows with
  | nil =>
    intro row hm
    unfold generate_pause_resume_sql at hgen
    simp only [Option.some.injEq] at hgen
    subst hgen
    simp at hm
  | cons entry rest ih =>
    obtain ⟨kt, ns2⟩ := entry
    intro row hm
    unfold generate_pause_resume_sql at hgen
    cases hs : splitDot1 kt with
    | none => rw [hs] at hgen; exact absurd hgen (by simp)
    | some p =>
      obtain ⟨db2, tb2⟩ := p
      rw [hs] at hgen
      simp only at hgen
      by_cases hskip : filtSkip fdb ftab db2 tb2 = true
      · rw [if_pos hskip] at hgen
        obtain ⟨dbtable, names, db, tb, h1, h2, h3⟩ := ih rows hgen row hm
        exact ⟨dbtable, names, db, tb, List.mem_cons_of_mem _ h1, h2, h3⟩
      · rw [if_neg hskip] at hgen
        cases hrest : generate_pause_resume_sql rest fdb ftab with
        | none => rw [hrest] at hgen; exact absurd hgen (by simp)
        | some rows2 =>
          rw [hrest] at hgen
          simp only [Option.map_some', Option.some.injEq] at hgen
          subst hgen
          rcases List.mem_cons.mp hm with rfl | hm2
          · exact ⟨kt, ns2, db2, tb2, List.mem_cons_self _ _, hs, rfl⟩
          · obtain ⟨dbtable, names, db, tb, h1, h2, h3⟩ := ih rows2 hrest row hm2
            exact ⟨dbtable, names, db, tb, List.mem_cons_of_mem _ h1, h2, h3⟩

/-- C8: `clean_dbname` strips exactly one legacy prefix and passes `None`
through; and for inputs whose schemas carry at most one prefix, no
aggregation key and no schema qualifier inside generated pause/resume SQL
starts with `default_cluster:`. -/
theorem c8_depre (infos : List (List Char × List JobRec)) (fdb ftab : Option (List Char))
    (hone : ∀ p ∈ infos, ∀ it ∈ p.2, ∀ s r, it.dbName = some s →
      s = dcPre ++ r → ∀ r2, r ≠ dcPre ++ r2) :
    clean_dbname (some ("default_cluster:foo".toList)) = some "foo".toList
    ∧ clean_dbname (some "foo".toList) = some "foo".toList
    ∧ clean_dbname none = none
    ∧ (∀ key ns, (key, ns) ∈ get_dbtable_to_names infos → ∀ r, key ≠ dcPre ++ r)
    ∧ (∀ rows, generate_pause_resume_sql (get_dbtable_to_names infos) fdb ftab = some rows →
        ∀ row ∈ rows, ∃ db tb, splitDot1 row.1 = some (db, tb) ∧ (∀ r, db ≠ dcPre ++ r) ∧
          row.2.2.1 = row.2.1.map (pauseStmt db) ∧ row.2.2.2 = row.2.1.map (resumeStmt db)) := by
  have hkey : ∀ key ns, (key, ns) ∈ get_dbtable_to_names infos → ∀ r, key ≠ dcPre ++ r := by
    intro key ns hm
    have hne : ns ≠ [] := vals_gdt infos key ns hm
    obtain ⟨n0, nr, rfl⟩ : ∃ n0 nr, ns = n0 :: nr := by
      cases ns with
      | nil => exact absurd rfl hne
      | cons a b => exact ⟨a, b, rfl⟩
    have hmem : memIn (get_dbtable_to_names infos) key n0 := ⟨n0 :: nr, hm, by simp⟩
    obtain ⟨p, hp, it, hit, d, t, hcd, hdne, _, _, _, _, hkey⟩ := (memIn_gdt infos key n0).mp hmem
    subst hkey
    have hdno : ∀ r, d ≠ dcPre ++ r := by
      cases hdb : it.dbName with
      | none => rw [hdb] at hcd; simp [clean_dbname] at hcd
      | some s =>
        rw [hdb] at hcd
        exact clean_no_pre hcd (fun r hr r2 => hone p hp it hit s r hdb hr r2)
    exact key_no_pre t hdno
  refine ⟨by decide, by decide, rfl, hkey, ?_⟩
  intro rows hgen row hm
  obtain ⟨dbtable, names, db, tb, h1, h2, h3⟩ := gen_rows_shape _ _ _ _ hgen row hm
  subst h3
  refine ⟨db, tb, h2, ?_, rfl, rfl⟩
  intro r he
  have hsplit := splitDot1_sound h2
  have hno := hkey dbtable names h1
  exact hno (r ++ '.' :: tb) (by rw [hsplit, he]; simp [List.append_assoc])

theorem c8_depre_witness :
    clean_dbname (some ("default_cluster:foo".toList)) = some "foo".toList
    ∧ "db1.t1".toList ≠ dcPre ++ "z".toList := by
  have h := c8_depre
    [("x".toList,
      [⟨some "j1".toList, some "default_cluster:db1".toList, some "t1".toList,
        some "p".toList⟩])] none none ?hone
  · exact ⟨h.1, h.2.2.2.1 "db1.t1".toList ["j1".toList] (by decide) "z".toList⟩
  case hone =>
    intro p hp it hit s r hs hr r2 hne
    simp only [List.mem_singleton] at hp
    subst hp
    simp only [List.mem_singleton] at hit
    subst hit
    simp only [Option.some.injEq] at hs
    have hs2 : s = "default_cluster:db1".toList := hs.symm
    subst hs2
    have hr2 : dcPre ++ "db1".toList = dcPre ++ r := by rw [← hr]; decide
    have hr3 : r = "db1".toList := (List.append_cancel_left hr2).symm
    subst hr3
    have := congrArg List.length hne
    simp [dcPre] at this

/-! ## The database-facing readers (claim C9)

Source lines 23-45, 56-87 and 108-129.  The behaviour of the database is an
explicit argument: a call either fails to connect (`get_mysql_connection`
returned `None`), raises during the query (caught by the `except` arm), or
returns rows. -/

inductive DbResp (α : Type) where
  | noConn : DbResp α
  | err : DbResp α
  | ok : α → DbResp α

/-- Extract `row[0]` of every row (`[row[0] for row in rows]`); an empty row
makes the comprehension raise, which the caller's `except` turns into the
untouched empty result list. -/
def rowsFirsts : List (List (List Char)) → Option (List (List Char))
  | [] => some []
  | row :: t =>
    match row with
    | [] => none
    | x :: _ => (rowsFirsts t).map (fun l => x :: l)

/-- `fetch_table_schemas(...)`, source lines 23-45. -/
def fetch_table_schemas (resp : DbResp (List (List (List Char)))) : List (List Char) :=
  match resp with
  | DbResp.noConn => []
  | DbResp.err => []
  | DbResp.ok rows =>
    match rowsFirsts rows with
    | some l => l
    | none => []

/-- `fetch_create_routine_load(...)`, source lines 108-129: probe the third,
second, then first column of the fetched row; no row or an empty row leaves
the empty string. -/
def fetch_create_routine_load (resp : DbResp (Option (List (List Char)))) : List Char :=
  match resp with
  | DbResp.noConn => []
  | DbResp.err => []
  | DbResp.ok none => []
  | DbResp.ok (some row) =>
    match row with
    | [] => []
    | a :: [] => a
    | _ :: b :: [] => b
    | _ :: _ :: c :: _ => c

/-- The per-schema row list of `fetch_routine_load_info`: a failed
connection or query contributes nothing; otherwise each record's schema is
de-prefixed and the optional table filter applied. -/
def frliRow (r : DbResp (List JobRec)) (ftab : Option (List Char)) : List JobRec :=
  match r with
  | DbResp.noConn => []
  | DbResp.err => []
  | DbResp.ok recs =>
    (recs.map (fun it => { it with dbName := clean_dbname it.dbName })).filter
      (fun it =>
        match ftab with
        | none => true
        | some f => decide (it.tableName = some f))

/-- `if filter_db and db != filter_db: continue` . -/
def fdbSkip (fdb : Option (List Char)) (db : List Char) : Bool :=
  match fdb with
  | none => false
  | some f => decide (db ≠ f)

/-- `fetch_routine_load_info(...)`, source lines 56-87: one query per schema
of the list, keeping only schemas that produced records. -/
def fetch_routine_load_info (db_list : List (List Char))
    (resp : List Char → DbResp (List JobRec)) (fdb ftab : Option (List Char)) :
    List (List Char × List JobRec) :=
  match db_list with
  | [] => []
  | db :: rest =>
    if fdbSkip fdb db then fetch_routine_load_info rest resp fdb ftab
    else if (frliRow (resp db) ftab).isEmpty then
      fetch_routine_load_info rest resp fdb ftab
    else (db, frliRow (resp db) ftab) :: fetch_routine_load_info rest resp fdb ftab

/-- C9: every database-facing failure is absorbed at its call site: the
schema inventory returns the empty list on connection or query failure, the
definition fetch returns the empty string, and a schema whose job-listing
query fails contributes no entry to the result of the info fetch. -/
theorem c9_absorb (db_list : List (List Char)) (resp : List Char → DbResp (List JobRec))
    (fdb ftab : Option (List Char)) (db : List Char)
    (hfail : resp db = DbResp.noConn ∨ resp db = DbResp.err) :
    fetch_table_schemas DbResp.noConn = [] ∧ fetch_table_schemas DbResp.err = []
    ∧ fetch_create_routine_load DbResp.noConn = []
    ∧ fetch_create_routine_load DbResp.err = []
    ∧ ∀ recs, (db, recs) ∉ fetch_routine_load_info db_list resp fdb ftab := by
  refine ⟨rfl, rfl, rfl, rfl, ?_⟩
  have hrow : frliRow (resp db) ftab = [] := by
    rcases hfail with h | h <;> rw [h] <;> rfl
  intro recs
  induction db_list with
  | nil => simp [fetch_routine_load_info]
  | cons d rest ih =>
    unfold fetch_routine_load_info
    by_cases hf : fdbSkip fdb d = true
    · rw [if_pos hf]
      exact ih
    · rw [if_neg hf]
      by_cases he : (frliRow (resp d) ftab).isEmpty = true
      · rw [if_pos he]
        exact ih
      · rw [if_neg he]
        intro hm
        rcases List.mem_cons.mp hm with heq | hm2
        · simp only [Prod.mk.injEq] at heq
          rw [← heq.1, hrow] at he
          simp at he
        · exact ih hm2

theorem c9_absorb_witness :
    fetch_table_schemas DbResp.noConn = [] ∧ fetch_table_schemas DbResp.err = []
    ∧ fetch_create_routine_load DbResp.noConn = []
    ∧ fetch_create_routine_load DbResp.err = []
    ∧ ∀ recs, ("bad".toList, recs) ∉
        fetch_routine_load_info ["ok".toList, "bad".toList]
          (fun db => if db = "bad".toList then DbResp.err
            else DbResp.ok [⟨some "j".toList, some "ok".toList, some "t".toList,
              some "p".toList⟩])
          none none :=
  c9_absorb ["ok".toList, "bad".toList]
    (fun db => if db = "bad".toList then DbResp.err
      else DbResp.ok [⟨some "j".toList, some "ok".toList, some "t".toList,
        some "p".toList⟩])
    none none "bad".toList (Or.inr (by simp))

end RL
